import Mathlib

/-!
Verification of the `http-next-links` crate: a parser that extracts from an
HTTP `Link` header every URI whose link-value carries a first `rel` parameter
matching the relation token `next`.

The embedding models Rust string slices as `List Char`.  Every function is
translated from the crate's source (`src/parser.rs`, `src/utils.rs`,
`src/lib.rs`); the driver loops are expressed with an explicit fuel argument
(the loops strictly consume input, so `length + 1` fuel always suffices, which
the proofs establish along the way).
-/

/-! ## String utilities (src/parser.rs, `StrExt`) -/

/-- Rust `HTTP_WHITESPACE`: space and horizontal tab, per `StrExt::HTTP_WHITESPACE`. -/
def isHttpWs (c : Char) : Bool := c == ' ' || c == '\t'

/-- Rust `str::trim_start_matches(&[' ', '\t'])`. -/
def trim_start_http_whitespaces (s : List Char) : List Char := s.dropWhile isHttpWs

/-- Rust `str::trim_end_matches(&[' ', '\t'])`. -/
def trim_end_http_whitespaces (s : List Char) : List Char :=
  (s.reverse.dropWhile isHttpWs).reverse

/-- Rust `str::split_once(c)`: split at the first occurrence of `c`, which is
    dropped; `none` if `c` does not occur. -/
def splitOnce (c : Char) : List Char → Option (List Char × List Char)
  | [] => none
  | x :: xs =>
    if x = c then some ([], xs)
    else
      match splitOnce c xs with
      | none => none
      | some (a, b) => some (x :: a, b)

/-- Accumulator loop for `splitChar`. -/
def splitCharAux (c : Char) : List Char → List Char → List (List Char)
  | [], acc => [acc.reverse]
  | x :: xs, acc =>
    if x = c then acc.reverse :: splitCharAux c xs []
    else splitCharAux c xs (x :: acc)

/-- Rust `str::split(c)`: the pieces between occurrences of `c`, empty pieces
    included (Rust's `split` yields them). -/
def splitChar (c : Char) (s : List Char) : List (List Char) := splitCharAux c s []

/-- Rust `u8::to_ascii_lowercase` lifted to `Char`: only ASCII `A`–`Z` is folded. -/
def toAsciiLower (c : Char) : Char :=
  if 'A' ≤ c && c ≤ 'Z' then Char.ofNat (c.toNat + 32) else c

/-- Rust `str::eq_ignore_ascii_case`. -/
def eqIgnoreAsciiCase (a b : List Char) : Bool :=
  a.map toAsciiLower == b.map toAsciiLower

/-! ## Error taxonomy (src/error.rs)

The crate's `Error` wraps either a fixed `&'static str` message or an external
URI-parse failure; the messages are in bijection with these constructors. -/

inductive Err where
  /-- message "Expected '&lt;' for uri" -/
  | expectedOpenAngle
  /-- message "Expected '&gt;' for uri" -/
  | expectedCloseAngle
  /-- message "Expected either ';' for next param, ',' for next uri or an empty string for termination" -/
  | expectedSeparatorOrTermination
  /-- message "Expected param" -/
  | expectedParam
  /-- message "Unclosed '\"' in param value" -/
  | unclosedQuote
  /-- Variant `Error::url_parse_err`: wraps the external URI parser's rejection of
      `uri`, keeping the offending text as the chained cause. -/
  | invalidUri (uri : List Char)
deriving Repr, DecidableEq

/-! ## Parameter scanner (src/parser.rs, `ParamsIter`) -/

inductive ParamsIter where
  | Params (s : List Char)
  | NextUri (s : List Char)
deriving Repr, DecidableEq

/-- The borrowed slice a scanner state holds. -/
def ParamsIter.slice : ParamsIter → List Char
  | .Params s => s
  | .NextUri s => s

/-- Rust `ParamsIter::new_without_trim`. -/
def ParamsIter.new_without_trim (rest : List Char) : Except Err ParamsIter :=
  match rest with
  | ';' :: params => .ok (.Params (trim_start_http_whitespaces params))
  | ',' :: next_uri => .ok (.NextUri (trim_start_http_whitespaces next_uri))
  | [] => .ok (.NextUri [])
  | _ => .error .expectedSeparatorOrTermination

/-- Rust `ParamsIter::new`. -/
def ParamsIter.new (rest : List Char) : Except Err ParamsIter :=
  ParamsIter.new_without_trim (trim_start_http_whitespaces rest)

/-- Rust `ParamsIter::into_next_uri`. -/
def ParamsIter.into_next_uri : ParamsIter → Option (List Char)
  | .NextUri next_uri => some next_uri
  | .Params _ => none

/-- The delimiter pattern `[',', ';']` of `rest.find([',', ';'])`. -/
def isParamDelim (c : Char) : Bool := c == ',' || c == ';'

/-- Rust `<ParamsIter as Iterator>::next`.  The Rust method mutates `self`; here the
    new state is returned alongside the yielded item.  On a failure the Rust
    closure returns before the corresponding `*self = …` assignment, so the
    state is left unchanged. -/
def ParamsIter.next : ParamsIter → Option (Except Err (List Char × List Char)) × ParamsIter
  | .NextUri n => (none, .NextUri n)
  | .Params params =>
    match splitOnce '=' params with
    | none => (some (.error .expectedParam), .Params params)
    | some (name, rest0) =>
      let name := trim_end_http_whitespaces name
      let rest := trim_start_http_whitespaces rest0
      match rest with
      | '"' :: restq =>
        -- quoted value: close at the next literal '"', no escapes
        match splitOnce '"' restq with
        | none => (some (.error .unclosedQuote), .Params params)
        | some (value, rest1) =>
          match ParamsIter.new rest1 with
          | .ok st => (some (.ok (name, value)), st)
          | .error e => (some (.error e), .Params params)
      | _ =>
        match rest.dropWhile (fun c => !isParamDelim c) with
        | [] =>
          -- no delimiter left: everything left is part of the value
          (some (.ok (name, rest)), .NextUri [])
        | d :: ds =>
          match ParamsIter.new_without_trim (d :: ds) with
          | .ok st => (some (.ok (name, rest.takeWhile (fun c => !isParamDelim c))), st)
          | .error e => (some (.error e), .Params params)

/-- Rust `parse_uri` (src/parser.rs): trim, require `<`, take the URI text up to the
    first `>`, and build the scanner for the remainder. -/
def parse_uri (s : List Char) : Except Err (List Char × ParamsIter) :=
  match trim_start_http_whitespaces s with
  | '<' :: s1 =>
    match splitOnce '>' s1 with
    | none => .error .expectedCloseAngle
    | some (uri, rest) =>
      match ParamsIter.new rest with
      | .ok it => .ok (uri, it)
      | .error e => .error e
  | _ => .error .expectedOpenAngle

/-- Termination measure of a scanner state: yielding a pair strictly
    decreases it. -/
def ParamsIter.measure : ParamsIter → Nat
  | .Params p => p.length + 1
  | .NextUri _ => 0

/-! ## Driver loops (src/utils.rs and src/lib.rs)

Each Rust loop is written with a fuel argument; `measure + 1`
(resp. `length + 1`) fuel is always sufficient because every iteration
strictly decreases the measure, as proved below. -/

/-- Rust `IterExt::try_find_map` (src/utils.rs) specialised to the driver's closure
    `|(name, value)| "rel".eq_ignore_ascii_case(name).then_some(value)`. -/
def tryFindMapGo : Nat → ParamsIter → Option (Except Err (List Char)) × ParamsIter
  | 0, it => (none, it)
  | fuel + 1, it =>
    match it.next with
    | (none, it') => (none, it')
    | (some (.error e), it') => (some (.error e), it')
    | (some (.ok (name, value)), it') =>
      if eqIgnoreAsciiCase "rel".toList name then (some (.ok value), it')
      else tryFindMapGo fuel it'

def ParamsIter.tryFindMap (it : ParamsIter) : Option (Except Err (List Char)) × ParamsIter :=
  tryFindMapGo (it.measure + 1) it

/-- Rust `params.find_map(Result::err)` (src/lib.rs line 55). -/
def findMapErrGo : Nat → ParamsIter → Option Err × ParamsIter
  | 0, it => (none, it)
  | fuel + 1, it =>
    match it.next with
    | (none, it') => (none, it')
    | (some (.error e), it') => (some e, it')
    | (some (.ok _), it') => findMapErrGo fuel it'

def ParamsIter.findMapErr (it : ParamsIter) : Option Err × ParamsIter :=
  findMapErrGo (it.measure + 1) it

/-- Rust `rels.split(' ').any(|rel| "next".eq_ignore_ascii_case(rel))`
    (src/lib.rs line 60): the matching test applied to a recorded `rel`
    value.  Note the split is on the space character only. -/
def is_next (rels : List Char) : Bool :=
  (splitChar ' ' rels).any (fun rel => eqIgnoreAsciiCase "next".toList rel)

/-- The loop body of `NextLinks::from_str` (src/lib.rs lines 41–68). -/
def fromStrGo : Nat → List Char → List (List Char) → Except Err (List (List Char))
  | 0, _, acc => .ok acc
  | fuel + 1, s, acc =>
    if s.isEmpty then .ok acc
    else
      match parse_uri s with
      | .error e => .error e
      | .ok (uri, params0) =>
        match params0.tryFindMap with
        | (some (.error e), _) => .error e
        | (rels?, params1) =>
          match params1.findMapErr with
          | (some e, _) => .error e
          | (none, params2) =>
            let rels : Option (List Char) :=
              match rels? with
              | some (.ok v) => some v
              | _ => none
            let acc' := if (rels.map is_next).getD false then acc ++ [uri] else acc
            match params2.into_next_uri with
            | some s' => fromStrGo fuel s' acc'
            | none => .error .expectedParam  -- models the `.unwrap()`; unreachable (`findMapErr_none_nextUri`)

/-- Rust `NextLinks::from_str`, at the level of URI texts.  (Materialising each
    matched URI through the external URI parser is modelled separately by
    `fromStrUrl`.) -/
def from_str (s : List Char) : Except Err (List (List Char)) :=
  fromStrGo (s.length + 1) s []

/-! ## Reference decomposition (spec-side)

The specification describes the output declaratively: the header is a
sequence of link-values `(URI text, ordered parameter list)`, and the result
keeps, in header order, the URIs of those link-values whose first `rel`
parameter's token list contains `next`.  The following definitions state that
description over the same scanner grammar; the refinement theorems compare
them with the driver `from_str`. -/

/-- All `(name, value)` pairs one scanner yields, with the leftover text held
    at exhaustion. -/
def pairsOfGo : Nat → ParamsIter → Except Err (List (List Char × List Char) × List Char)
  | 0, _ => .ok ([], [])
  | fuel + 1, it =>
    match it.next with
    | (none, it') => .ok ([], it'.slice)
    | (some (.error e), _) => .error e
    | (some (.ok pr), it') =>
      match pairsOfGo fuel it' with
      | .error e => .error e
      | .ok (ps, l) => .ok (pr :: ps, l)

def ParamsIter.pairsOf (it : ParamsIter) : Except Err (List (List Char × List Char) × List Char) :=
  pairsOfGo (it.measure + 1) it

/-- A link-value: the URI text together with its ordered parameter list. -/
abbrev LinkValue := List Char × List (List Char × List Char)

deriving instance DecidableEq for Except

/-- The ordered sequence of link-values of a header. -/
def linkValuesGo : Nat → List Char → Except Err (List LinkValue)
  | 0, _ => .ok []
  | fuel + 1, s =>
    if s.isEmpty then .ok []
    else
      match parse_uri s with
      | .error e => .error e
      | .ok (uri, it) =>
        match it.pairsOf with
        | .error e => .error e
        | .ok (ps, leftover) =>
          match linkValuesGo fuel leftover with
          | .error e => .error e
          | .ok lvs => .ok ((uri, ps) :: lvs)

def linkValues (s : List Char) : Except Err (List LinkValue) :=
  linkValuesGo (s.length + 1) s

/-- Whether a parameter name designates `rel` (ASCII case-insensitive). -/
def isRelName (name : List Char) : Bool := eqIgnoreAsciiCase "rel".toList name

/-- The first `rel` parameter's value of a link-value, if any. -/
def firstRel (ps : List (List Char × List Char)) : Option (List Char) :=
  (ps.find? (fun pr => isRelName pr.1)).map Prod.snd

/-- Accumulator loop for `splitChars`. -/
def splitCharsAux (seps : List Char) : List Char → List Char → List (List Char)
  | [], acc => [acc.reverse]
  | x :: xs, acc =>
    if seps.contains x then acc.reverse :: splitCharsAux seps xs []
    else splitCharsAux seps xs (x :: acc)

/-- Split on every occurrence of any character of `seps`. -/
def splitChars (seps : List Char) (s : List Char) : List (List Char) :=
  splitCharsAux seps s []

/-- Spec wording of the relation-token test: "the `rel` value split on
    whitespace (space or horizontal tab) into a sequence of case-insensitive
    tokens", any of which equals `next`. -/
def specIsNextSpaceTab (rels : List Char) : Bool :=
  (splitChars [' ', '\t'] rels).any (fun t => eqIgnoreAsciiCase "next".toList t)

/-- Amended spec wording of the relation-token test: tokens are separated by
    the space character only; horizontal tab is not a separator. -/
def specIsNextSpaceOnly (rels : List Char) : Bool :=
  (splitChars [' '] rels).any (fun t => eqIgnoreAsciiCase "next".toList t)

/-- Spec-side match of one link-value: its first `rel` parameter's token list
    contains `next`. -/
def lvMatchesNext (lv : LinkValue) : Bool :=
  match firstRel lv.2 with
  | some v => specIsNextSpaceOnly v
  | none => false

/-- Spec-side output: the URIs of the matching link-values, in header order. -/
def specSelectedUris (lvs : List LinkValue) : List (List Char) :=
  (lvs.filter lvMatchesNext).map Prod.fst

/-! ## URI materialisation (modelled)

`NextLinks` holds `Vec<Url>`, and `Error::url_parse_err` wraps the external
`url::ParseError`, but the statement materialising a `Url` from the extracted
URI text does not appear in the `from_str` body under src/ — only its failure
test (`SIMPLE_CASES_FAILURE`, src/lib.rs lines 116–119) and the error
constructor (src/error.rs) witness it.  The model below supplies it. -/

/-- Modelled from the spec: the external URI collaborator (the `url` crate's
    `Url::parse`) and the missing call site in `from_str` that materialises a
    `Url` from each extracted URI text.  The collaborator is abstracted as a
    function `parseU` into an arbitrary URI type; `none` models a parse
    rejection.  The repository's own failure test (src/lib.rs lines 116–119)
    expects `url_parse_err` for a header whose only ill-formed URI belongs to
    a link-value with `rel="preconnect"`, which fixes the call site as eager:
    each link-value's URI is materialised right after `parse_uri`, before the
    `rel` test. -/
def fromStrUrlGo {α : Type} (parseU : List Char → Option α) :
    Nat → List Char → List α → Except Err (List α)
  | 0, _, acc => .ok acc
  | fuel + 1, s, acc =>
    if s.isEmpty then .ok acc
    else
      match parse_uri s with
      | .error e => .error e
      | .ok (uri, params0) =>
        match parseU uri with
        | none => .error (.invalidUri uri)
        | some u =>
          match params0.tryFindMap with
          | (some (.error e), _) => .error e
          | (rels?, params1) =>
            match params1.findMapErr with
            | (some e, _) => .error e
            | (none, params2) =>
              let rels : Option (List Char) :=
                match rels? with
                | some (.ok v) => some v
                | _ => none
              let acc' := if (rels.map is_next).getD false then acc ++ [u] else acc
              match params2.into_next_uri with
              | some s' => fromStrUrlGo parseU fuel s' acc'
              | none => .error .expectedParam

/-- Rust `NextLinks::from_str` with the URI materialisation of `fromStrUrlGo`. -/
def fromStrUrl {α : Type} (parseU : List Char → Option α) (s : List Char) : Except Err (List α) :=
  fromStrUrlGo parseU (s.length + 1) s []


/-- Code-side match of one link-value: the source's `is_next` test applied to
    its first `rel` parameter's value (`unwrap_or(false)` when there is
    none). -/
def lvIsNextCode (lv : LinkValue) : Bool :=
  ((firstRel lv.2).map is_next).getD false

/-- The last character of a slice that is not horizontal whitespace. -/
def lastNonWs (s : List Char) : Option Char :=
  (s.reverse.dropWhile isHttpWs).head?

/-- Simulation relation for the trailing-comma property: the second state is
    the first with `z` appended to its slice, except that a state that
    consumed its input to the very end pairs with one that also consumed the
    appended trailing separator. -/
def SimZ (z : List Char) (it it2 : ParamsIter) : Prop :=
  (∃ p, it = .Params p ∧ it2 = .Params (p ++ z))
  ∨ (∃ n, n ≠ [] ∧ it = .NextUri n ∧ it2 = .NextUri (n ++ z))
  ∨ (it = .NextUri [] ∧ it2 = .NextUri [])

/-! ## Basic facts about the string utilities -/

theorem splitOnce_eq_some (c : Char) (s : List Char) :
    ∀ a b, splitOnce c s = some (a, b) → s = a ++ c :: b ∧ c ∉ a := by
  induction s with
  | nil => simp [splitOnce]
  | cons x xs ih =>
    intro a b h
    by_cases hx : x = c
    · rw [splitOnce, if_pos hx] at h
      simp only [Option.some.injEq, Prod.mk.injEq] at h
      obtain ⟨rfl, rfl⟩ := h
      simp [hx]
    · rw [splitOnce, if_neg hx] at h
      cases hsp : splitOnce c xs with
      | none => rw [hsp] at h; simp at h
      | some ab =>
        obtain ⟨a', b'⟩ := ab
        rw [hsp] at h
        simp only [Option.some.injEq, Prod.mk.injEq] at h
        obtain ⟨ha, hb⟩ := h
        subst ha
        subst hb
        obtain ⟨h1, h2⟩ := ih a' b' hsp
        refine ⟨by simp [h1], ?_⟩
        simp only [List.mem_cons, not_or]
        exact ⟨fun hc => hx hc.symm, h2⟩

theorem splitOnce_append (c : Char) (a b : List Char) (ha : c ∉ a) :
    splitOnce c (a ++ c :: b) = some (a, b) := by
  induction a with
  | nil => simp [splitOnce]
  | cons x xs ih =>
    have hxc : ¬ (x = c) := fun h => ha (h ▸ List.mem_cons_self x xs)
    rw [List.cons_append, splitOnce, if_neg hxc,
      ih (fun h => ha (List.mem_cons_of_mem _ h))]

theorem splitOnce_eq_none (c : Char) (s : List Char) :
    splitOnce c s = none ↔ c ∉ s := by
  induction s with
  | nil => simp [splitOnce]
  | cons x xs ih =>
    by_cases hx : x = c
    · rw [splitOnce, if_pos hx]
      simp [hx]
    · rw [splitOnce, if_neg hx]
      cases hsp : splitOnce c xs with
      | none =>
        have hmem := ih.mp hsp
        simp only [List.mem_cons, not_or]
        exact iff_of_true (by simp) ⟨fun hc => hx hc.symm, hmem⟩
      | some ab =>
        have hmem : c ∈ xs := by
          by_contra hc
          rw [ih.mpr hc] at hsp
          cases hsp
        obtain ⟨a', b'⟩ := ab
        simp only [List.mem_cons, not_or]
        exact iff_of_false (by simp) (fun hend => hend.2 hmem)

theorem dropWhile_isSuffix (p : Char → Bool) (l : List Char) : l.dropWhile p <:+ l := by
  induction l with
  | nil => simp
  | cons x xs ih =>
    rw [List.dropWhile_cons]
    split
    · exact ih.trans (List.suffix_cons x xs)
    · exact List.suffix_refl _

theorem dropWhile_head_not (p : Char → Bool) (l : List Char) (x : Char) (t : List Char)
    (h : l.dropWhile p = x :: t) : p x = false := by
  induction l with
  | nil => simp at h
  | cons y ys ih =>
    rw [List.dropWhile_cons] at h
    split at h
    · exact ih h
    · rename_i hy
      cases h
      simpa using hy

theorem splitOnce_suffix (c : Char) (s a b : List Char) (h : splitOnce c s = some (a, b)) :
    b <:+ s := by
  obtain ⟨h1, _⟩ := splitOnce_eq_some c s a b h
  exact ⟨a ++ [c], by simp [h1]⟩

theorem splitOnce_length (c : Char) (s a b : List Char) (h : splitOnce c s = some (a, b)) :
    s.length = a.length + b.length + 1 := by
  obtain ⟨h1, _⟩ := splitOnce_eq_some c s a b h
  subst h1
  simp
  omega

theorem trim_start_isSuffix (s : List Char) : trim_start_http_whitespaces s <:+ s :=
  dropWhile_isSuffix _ _

theorem trim_start_length_le (s : List Char) :
    (trim_start_http_whitespaces s).length ≤ s.length :=
  (trim_start_isSuffix s).length_le

/-! ## One-step facts about the scanner -/

theorem nwt_ok_spec (x : List Char) (st : ParamsIter)
    (h : ParamsIter.new_without_trim x = .ok st) :
    st.slice <:+ x ∧ st.measure ≤ x.length := by
  unfold ParamsIter.new_without_trim at h
  split at h
  · rename_i params
    injection h with h
    subst h
    refine ⟨(trim_start_isSuffix params).trans (List.suffix_cons _ _), ?_⟩
    simp only [ParamsIter.measure, List.length_cons]
    exact Nat.succ_le_succ (trim_start_length_le params)
  · rename_i next_uri
    injection h with h
    subst h
    exact ⟨(trim_start_isSuffix next_uri).trans (List.suffix_cons _ _),
      by simp [ParamsIter.measure]⟩
  · injection h with h
    subst h
    exact ⟨List.nil_suffix, by simp [ParamsIter.measure]⟩
  · cases h

theorem new_ok_spec (x : List Char) (st : ParamsIter)
    (h : ParamsIter.new x = .ok st) :
    st.slice <:+ x ∧ st.measure ≤ x.length := by
  obtain ⟨h1, h2⟩ := nwt_ok_spec _ _ h
  exact ⟨h1.trans (trim_start_isSuffix x), h2.trans (trim_start_length_le x)⟩

/-- Everything one scanner step guarantees: the slice only moves forward
    (suffix), yielding a pair strictly shrinks the measure, a failure leaves
    the state untouched, and exhaustion only happens in (and preserves) the
    terminal state. -/
theorem next_spec (it : ParamsIter) :
    ∀ r it', it.next = (r, it') →
      it'.slice <:+ it.slice
      ∧ it'.measure ≤ it.measure
      ∧ (∀ pr, r = some (.ok pr) → it'.measure < it.measure)
      ∧ (∀ e, r = some (.error e) → it' = it)
      ∧ (r = none → it' = it ∧ ∃ n, it = .NextUri n) := by
  intro r it' h
  cases it with
  | NextUri n =>
    simp only [ParamsIter.next] at h
    injection h with h1 h2
    subst h1
    subst h2
    exact ⟨List.suffix_refl _, le_refl _,
      fun pr hpr => Option.noConfusion hpr,
      fun e he => Option.noConfusion he,
      fun _ => ⟨rfl, n, rfl⟩⟩
  | Params p =>
    simp only [ParamsIter.next] at h
    split at h
    · -- no '=' anywhere: Expected param, state unchanged
      injection h with h1 h2
      subst h1
      subst h2
      refine ⟨List.suffix_refl _, le_refl _, ?_, fun e he => rfl, ?_⟩
      · intro pr hpr
        injection hpr with hpr
        cases hpr
      · intro hn
        cases hn
    · rename_i name rest0 heq
      have hp : p = name ++ '=' :: rest0 ∧ ('=' : Char) ∉ name :=
        splitOnce_eq_some _ _ _ _ heq
      have hrest0_suffix : rest0 <:+ p := splitOnce_suffix _ _ _ _ heq
      have hrest0_len : p.length = name.length + rest0.length + 1 :=
        splitOnce_length _ _ _ _ heq
      split at h
      · -- quoted value
        rename_i restq heq2
        split at h
        · -- unclosed quote
          injection h with h1 h2
          subst h1
          subst h2
          refine ⟨List.suffix_refl _, le_refl _, ?_, fun e he => rfl, ?_⟩
          · intro pr hpr
            injection hpr with hpr
            cases hpr
          · intro hn
            cases hn
        · rename_i value rest1 heq3
          have hrest1_suffix : rest1 <:+ restq := splitOnce_suffix _ _ _ _ heq3
          have hrest1_len : restq.length = value.length + rest1.length + 1 :=
            splitOnce_length _ _ _ _ heq3
          have hrestq_suffix : restq <:+ rest0 :=
            (List.suffix_cons '"' restq).trans (heq2 ▸ trim_start_isSuffix rest0)
          have hrestq_len : restq.length + 1 ≤ rest0.length := by
            have := trim_start_length_le rest0
            rw [heq2] at this
            simpa using this
          split at h
          · -- new state built after the closing quote
            rename_i st heq4
            obtain ⟨hs1, hs2⟩ := new_ok_spec _ _ heq4
            injection h with h1 h2
            subst h1
            subst h2
            have hsuffix : st.slice <:+ p :=
              ((hs1.trans hrest1_suffix).trans hrestq_suffix).trans hrest0_suffix
            have hlt : st.measure < p.length + 1 := by
              have h5 : rest1.length ≤ rest0.length := by omega
              omega
            refine ⟨hsuffix, by simpa [ParamsIter.measure] using Nat.le_of_lt hlt,
              fun pr hpr => by simpa [ParamsIter.measure] using hlt, ?_, ?_⟩
            · intro e he
              injection he with he
              cases he
            · intro hn
              cases hn
          · -- ParamsIter::new failed: state unchanged
            injection h with h1 h2
            subst h1
            subst h2
            refine ⟨List.suffix_refl _, le_refl _, ?_, fun e he => rfl, ?_⟩
            · intro pr hpr
              injection hpr with hpr
              cases hpr
            · intro hn
              cases hn
      · -- unquoted value
        split at h
        · -- no delimiter: rest of the input is the value
          injection h with h1 h2
          subst h1
          subst h2
          refine ⟨List.nil_suffix, by simp [ParamsIter.measure], ?_, ?_, ?_⟩
          · intro pr hpr
            simp [ParamsIter.measure]
          · intro e he
            injection he with he
            cases he
          · intro hn
            cases hn
        · rename_i d ds heqd
          split at h
          · -- state repositioned at the delimiter
            rename_i st heq4
            obtain ⟨hs1, hs2⟩ := nwt_ok_spec _ _ heq4
            injection h with h1 h2
            subst h1
            subst h2
            have hdds : (d :: ds) <:+ trim_start_http_whitespaces rest0 :=
              heqd ▸ dropWhile_isSuffix _ _
            have hsuffix : st.slice <:+ p :=
              (hs1.trans (hdds.trans (trim_start_isSuffix rest0))).trans hrest0_suffix
            have hlen : (d :: ds).length ≤ rest0.length :=
              (hdds.length_le).trans (trim_start_length_le rest0)
            have hlt : st.measure < p.length + 1 := by omega
            refine ⟨hsuffix, Nat.le_of_lt (by simpa [ParamsIter.measure] using hlt),
              fun pr hpr => by simpa [ParamsIter.measure] using hlt, ?_, ?_⟩
            · intro e he
              injection he with he
              cases he
            · intro hn
              cases hn
          · -- new_without_trim failed (unreachable in fact): state unchanged
            injection h with h1 h2
            subst h1
            subst h2
            refine ⟨List.suffix_refl _, le_refl _, ?_, fun e he => rfl, ?_⟩
            · intro pr hpr
              injection hpr with hpr
              cases hpr
            · intro hn
              cases hn

/-! ## Fuel irrelevance and step equations for the driver loops -/

theorem tryFindMapGo_irrel (f1 : Nat) :
    ∀ f2 it, ParamsIter.measure it < f1 → ParamsIter.measure it < f2 →
      tryFindMapGo f1 it = tryFindMapGo f2 it := by
  induction f1 with
  | zero => intro f2 it h1 _; omega
  | succ f1 ih =>
    intro f2 it h1 h2
    cases f2 with
    | zero => omega
    | succ f2 =>
      simp only [tryFindMapGo]
      cases hnext : it.next with
      | mk r it' =>
        cases r with
        | none => rfl
        | some ex =>
          cases ex with
          | error e => rfl
          | ok pr =>
            obtain ⟨n, v⟩ := pr
            simp only
            split
            · rfl
            · have hlt : it'.measure < it.measure :=
                (next_spec it _ _ hnext).2.2.1 (n, v) rfl
              exact ih f2 it' (by omega) (by omega)

theorem findMapErrGo_irrel (f1 : Nat) :
    ∀ f2 it, ParamsIter.measure it < f1 → ParamsIter.measure it < f2 →
      findMapErrGo f1 it = findMapErrGo f2 it := by
  induction f1 with
  | zero => intro f2 it h1 _; omega
  | succ f1 ih =>
    intro f2 it h1 h2
    cases f2 with
    | zero => omega
    | succ f2 =>
      simp only [findMapErrGo]
      cases hnext : it.next with
      | mk r it' =>
        cases r with
        | none => rfl
        | some ex =>
          cases ex with
          | error e => rfl
          | ok pr =>
            have hlt : it'.measure < it.measure :=
              (next_spec it _ _ hnext).2.2.1 pr rfl
            exact ih f2 it' (by omega) (by omega)

theorem pairsOfGo_irrel (f1 : Nat) :
    ∀ f2 it, ParamsIter.measure it < f1 → ParamsIter.measure it < f2 →
      pairsOfGo f1 it = pairsOfGo f2 it := by
  induction f1 with
  | zero => intro f2 it h1 _; omega
  | succ f1 ih =>
    intro f2 it h1 h2
    cases f2 with
    | zero => omega
    | succ f2 =>
      simp only [pairsOfGo]
      cases hnext : it.next with
      | mk r it' =>
        cases r with
        | none => rfl
        | some ex =>
          cases ex with
          | error e => rfl
          | ok pr =>
            have hlt : it'.measure < it.measure :=
              (next_spec it _ _ hnext).2.2.1 pr rfl
            simp only
            rw [ih f2 it' (by omega) (by omega)]

theorem tryFindMapGo_eq (fuel : Nat) (it : ParamsIter) (h : it.measure < fuel) :
    tryFindMapGo fuel it = it.tryFindMap :=
  tryFindMapGo_irrel fuel (it.measure + 1) it h (Nat.lt_succ_self _)

theorem findMapErrGo_eq (fuel : Nat) (it : ParamsIter) (h : it.measure < fuel) :
    findMapErrGo fuel it = it.findMapErr :=
  findMapErrGo_irrel fuel (it.measure + 1) it h (Nat.lt_succ_self _)

theorem pairsOfGo_eq (fuel : Nat) (it : ParamsIter) (h : it.measure < fuel) :
    pairsOfGo fuel it = it.pairsOf :=
  pairsOfGo_irrel fuel (it.measure + 1) it h (Nat.lt_succ_self _)

theorem tryFindMap_none (it it' : ParamsIter) (h : it.next = (none, it')) :
    it.tryFindMap = (none, it') := by
  unfold ParamsIter.tryFindMap
  simp only [tryFindMapGo, h]

theorem tryFindMap_error (it it' : ParamsIter) (e : Err)
    (h : it.next = (some (.error e), it')) :
    it.tryFindMap = (some (.error e), it') := by
  unfold ParamsIter.tryFindMap
  simp only [tryFindMapGo, h]

theorem tryFindMap_ok_rel (it it' : ParamsIter) (n v : List Char)
    (h : it.next = (some (.ok (n, v)), it'))
    (hrel : eqIgnoreAsciiCase "rel".toList n = true) :
    it.tryFindMap = (some (.ok v), it') := by
  unfold ParamsIter.tryFindMap
  simp only [tryFindMapGo, h, hrel, if_true]

theorem tryFindMap_ok_notrel (it it' : ParamsIter) (n v : List Char)
    (h : it.next = (some (.ok (n, v)), it'))
    (hrel : eqIgnoreAsciiCase "rel".toList n = false) :
    it.tryFindMap = it'.tryFindMap := by
  unfold ParamsIter.tryFindMap
  simp only [tryFindMapGo, h, hrel, if_false]
  exact tryFindMapGo_eq _ _ ((next_spec it _ _ h).2.2.1 (n, v) rfl)

theorem findMapErr_none (it it' : ParamsIter) (h : it.next = (none, it')) :
    it.findMapErr = (none, it') := by
  unfold ParamsIter.findMapErr
  simp only [findMapErrGo, h]

theorem findMapErr_error (it it' : ParamsIter) (e : Err)
    (h : it.next = (some (.error e), it')) :
    it.findMapErr = (some e, it') := by
  unfold ParamsIter.findMapErr
  simp only [findMapErrGo, h]

theorem findMapErr_ok (it it' : ParamsIter) (pr : List Char × List Char)
    (h : it.next = (some (.ok pr), it')) :
    it.findMapErr = it'.findMapErr := by
  unfold ParamsIter.findMapErr
  simp only [findMapErrGo, h]
  exact findMapErrGo_eq _ _ ((next_spec it _ _ h).2.2.1 pr rfl)

theorem pairsOf_none (it it' : ParamsIter) (h : it.next = (none, it')) :
    it.pairsOf = .ok ([], it'.slice) := by
  unfold ParamsIter.pairsOf
  simp only [pairsOfGo, h]

theorem pairsOf_error (it it' : ParamsIter) (e : Err)
    (h : it.next = (some (.error e), it')) :
    it.pairsOf = .error e := by
  unfold ParamsIter.pairsOf
  simp only [pairsOfGo, h]

theorem pairsOf_ok (it it' : ParamsIter) (pr : List Char × List Char)
    (h : it.next = (some (.ok pr), it')) :
    it.pairsOf = (it'.pairsOf).map (fun pl => (pr :: pl.1, pl.2)) := by
  show pairsOfGo (it.measure + 1) it = _
  rw [pairsOfGo, h]
  simp only
  rw [pairsOfGo_eq _ _ ((next_spec it _ _ h).2.2.1 pr rfl)]
  cases hp : it'.pairsOf with
  | error e => rfl
  | ok pl =>
    cases pl
    simp [Except.map]

/-! ## The scanner's pair sequence versus the driver's two passes -/

theorem firstRel_cons_rel (n v : List Char) (ps : List (List Char × List Char))
    (h : isRelName n = true) :
    firstRel ((n, v) :: ps) = some v := by
  unfold firstRel
  rw [List.find?_cons_of_pos _ (by simpa using h)]
  rfl

theorem firstRel_cons_notrel (n v : List Char) (ps : List (List Char × List Char))
    (h : isRelName n = false) :
    firstRel ((n, v) :: ps) = firstRel ps := by
  unfold firstRel
  rw [List.find?_cons_of_neg _ (by simp [h])]

theorem measure_zero_nextUri (it : ParamsIter) (h : it.measure = 0) :
    ∃ n, it = .NextUri n := by
  cases it with
  | Params p => simp [ParamsIter.measure] at h
  | NextUri n => exact ⟨n, rfl⟩

theorem nextUri_scan (n : List Char) :
    (ParamsIter.NextUri n).pairsOf = .ok ([], n)
    ∧ (ParamsIter.NextUri n).findMapErr = (none, .NextUri n)
    ∧ (ParamsIter.NextUri n).tryFindMap = (none, .NextUri n) := by
  have hnext : (ParamsIter.NextUri n).next = (none, .NextUri n) := rfl
  refine ⟨?_, findMapErr_none _ _ hnext, tryFindMap_none _ _ hnext⟩
  have := pairsOf_none _ _ hnext
  simpa [ParamsIter.slice] using this

/-- Exhausting the scanner with `find_map(Result::err)` agrees with the full
    pair sequence: it reports exactly the first scanner failure, and on a
    clean sequence it ends in the terminal state holding the leftover. -/
theorem findMapErr_pairsOf (N : Nat) :
    ∀ it : ParamsIter, it.measure ≤ N →
      (∀ e, it.pairsOf = .error e → (it.findMapErr).1 = some e)
      ∧ (∀ ps l, it.pairsOf = .ok (ps, l) → it.findMapErr = (none, .NextUri l)) := by
  induction N with
  | zero =>
    intro it hm
    obtain ⟨n, rfl⟩ := measure_zero_nextUri it (Nat.le_zero.mp hm)
    obtain ⟨hp, hf, -⟩ := nextUri_scan n
    constructor
    · intro e he
      rw [hp] at he
      cases he
    · intro ps l hpl
      rw [hp] at hpl
      simp only [Except.ok.injEq, Prod.mk.injEq] at hpl
      rw [hf, hpl.2]
  | succ N ih =>
    intro it hm
    cases hnext : it.next with
    | mk r it' =>
      cases r with
      | none =>
        obtain ⟨rfl, n, rfl⟩ := (next_spec it _ _ hnext).2.2.2.2 rfl
        obtain ⟨hp, hf, -⟩ := nextUri_scan n
        constructor
        · intro e he
          rw [hp] at he
          cases he
        · intro ps l hpl
          rw [hp] at hpl
          simp only [Except.ok.injEq, Prod.mk.injEq] at hpl
          rw [hf, hpl.2]
      | some ex =>
        cases ex with
        | error e0 =>
          have hp := pairsOf_error _ _ _ hnext
          have hf := findMapErr_error _ _ _ hnext
          constructor
          · intro e he
            rw [hp] at he
            injection he with he
            subst he
            rw [hf]
          · intro ps l hpl
            rw [hp] at hpl
            cases hpl
        | ok pr =>
          have hp := pairsOf_ok _ _ _ hnext
          have hf := findMapErr_ok _ _ _ hnext
          have hm' : it'.measure ≤ N := by
            have := (next_spec it _ _ hnext).2.2.1 pr rfl
            omega
          obtain ⟨ih1, ih2⟩ := ih it' hm'
          constructor
          · intro e he
            rw [hp] at he
            cases hq : it'.pairsOf with
            | error e1 =>
              rw [hq] at he
              simp only [Except.map] at he
              injection he with he
              subst he
              rw [hf]
              exact ih1 _ hq
            | ok pl =>
              rw [hq] at he
              simp [Except.map] at he
          · intro ps l hpl
            rw [hp] at hpl
            cases hq : it'.pairsOf with
            | error e1 =>
              rw [hq] at hpl
              simp [Except.map] at hpl
            | ok pl =>
              obtain ⟨ps', l'⟩ := pl
              rw [hq] at hpl
              simp only [Except.map, Except.ok.injEq, Prod.mk.injEq] at hpl
              rw [hf, ih2 ps' l' hq, hpl.2]

/-- Pass `try_find_map` consults exactly the first `rel` pair of the scanner's pair
    sequence (first-occurrence-wins), and the subsequent `find_map` drain
    reports exactly the first failure, ending in the terminal state. -/
theorem tryFindMap_pairsOf (N : Nat) :
    ∀ it : ParamsIter, it.measure ≤ N →
      (∀ e, it.pairsOf = .error e →
          ((it.tryFindMap).1 = some (.error e)
           ∨ ∃ v it1, it.tryFindMap = (some (.ok v), it1) ∧ (it1.findMapErr).1 = some e))
      ∧ (∀ ps l, it.pairsOf = .ok (ps, l) →
          (∀ v, firstRel ps = some v →
              ∃ it1, it.tryFindMap = (some (.ok v), it1)
                ∧ it1.findMapErr = (none, .NextUri l))
          ∧ (firstRel ps = none → it.tryFindMap = (none, .NextUri l))) := by
  induction N with
  | zero =>
    intro it hm
    obtain ⟨n, rfl⟩ := measure_zero_nextUri it (Nat.le_zero.mp hm)
    obtain ⟨hp, -, ht⟩ := nextUri_scan n
    constructor
    · intro e he
      rw [hp] at he
      cases he
    · intro ps l hpl
      rw [hp] at hpl
      simp only [Except.ok.injEq, Prod.mk.injEq] at hpl
      obtain ⟨hps, hl⟩ := hpl
      constructor
      · intro v hv
        rw [← hps] at hv
        cases hv
      · intro _
        rw [ht, hl]
  | succ N ih =>
    intro it hm
    cases hnext : it.next with
    | mk r it' =>
      cases r with
      | none =>
        obtain ⟨rfl, n, rfl⟩ := (next_spec it _ _ hnext).2.2.2.2 rfl
        obtain ⟨hp, -, ht⟩ := nextUri_scan n
        constructor
        · intro e he
          rw [hp] at he
          cases he
        · intro ps l hpl
          rw [hp] at hpl
          simp only [Except.ok.injEq, Prod.mk.injEq] at hpl
          obtain ⟨hps, hl⟩ := hpl
          constructor
          · intro v hv
            rw [← hps] at hv
            cases hv
          · intro _
            rw [ht, hl]
      | some ex =>
        cases ex with
        | error e0 =>
          have hp := pairsOf_error _ _ _ hnext
          have ht := tryFindMap_error _ _ _ hnext
          constructor
          · intro e he
            rw [hp] at he
            injection he with he
            subst he
            left
            rw [ht]
          · intro ps l hpl
            rw [hp] at hpl
            cases hpl
        | ok pr =>
          obtain ⟨n, v⟩ := pr
          have hp := pairsOf_ok _ _ _ hnext
          have hm' : it'.measure ≤ N := by
            have := (next_spec it _ _ hnext).2.2.1 (n, v) rfl
            omega
          by_cases hrel : eqIgnoreAsciiCase "rel".toList n = true
          · -- the pair is the first `rel`: try_find_map stops here
            have ht := tryFindMap_ok_rel _ _ _ _ hnext hrel
            constructor
            · intro e he
              rw [hp] at he
              cases hq : it'.pairsOf with
              | error e1 =>
                rw [hq] at he
                injection he with he
                subst he
                right
                exact ⟨v, it', ht, (findMapErr_pairsOf N it' hm').1 _ hq⟩
              | ok pl =>
                rw [hq] at he
                simp [Except.map] at he
            · intro ps l hpl
              rw [hp] at hpl
              cases hq : it'.pairsOf with
              | error e1 =>
                rw [hq] at hpl
                simp [Except.map] at hpl
              | ok pl =>
                obtain ⟨ps', l'⟩ := pl
                rw [hq] at hpl
                simp only [Except.map, Except.ok.injEq, Prod.mk.injEq] at hpl
                obtain ⟨hps, hl⟩ := hpl
                constructor
                · intro v0 hv0
                  rw [← hps] at hv0
                  rw [firstRel_cons_rel _ _ _ (by simpa [isRelName] using hrel)] at hv0
                  injection hv0 with hv0
                  subst hv0
                  exact ⟨it', ht, by rw [(findMapErr_pairsOf N it' hm').2 ps' l' hq, hl]⟩
                · intro hnone
                  rw [← hps, firstRel_cons_rel _ _ _ (by simpa [isRelName] using hrel)] at hnone
                  cases hnone
          · -- not a `rel` pair: both passes skip it
            have hrel' : eqIgnoreAsciiCase "rel".toList n = false := by
              simpa using hrel
            have ht := tryFindMap_ok_notrel _ _ _ _ hnext hrel'
            obtain ⟨ih1, ih2⟩ := ih it' hm'
            constructor
            · intro e he
              rw [hp] at he
              cases hq : it'.pairsOf with
              | error e1 =>
                rw [hq] at he
                injection he with he
                subst he
                rw [ht]
                exact ih1 _ hq
              | ok pl =>
                rw [hq] at he
                simp [Except.map] at he
            · intro ps l hpl
              rw [hp] at hpl
              cases hq : it'.pairsOf with
              | error e1 =>
                rw [hq] at hpl
                simp [Except.map] at hpl
              | ok pl =>
                obtain ⟨ps', l'⟩ := pl
                rw [hq] at hpl
                simp only [Except.map, Except.ok.injEq, Prod.mk.injEq] at hpl
                obtain ⟨hps, hl⟩ := hpl
                obtain ⟨ihv, ihn⟩ := ih2 ps' l' hq
                constructor
                · intro v0 hv0
                  rw [← hps, firstRel_cons_notrel _ _ _ (by simpa [isRelName] using hrel')] at hv0
                  obtain ⟨it1, hit1, hfm⟩ := ihv v0 hv0
                  exact ⟨it1, by rw [ht, hit1], by rw [hfm, hl]⟩
                · intro hnone
                  rw [← hps, firstRel_cons_notrel _ _ _ (by simpa [isRelName] using hrel')] at hnone
                  rw [ht, ihn hnone, hl]

/-- The leftover a clean scan reports is a suffix of the scanned slice. -/
theorem pairsOf_leftover (N : Nat) :
    ∀ (it : ParamsIter) (ps : List (List Char × List Char)) (l : List Char),
      it.measure ≤ N → it.pairsOf = .ok (ps, l) → l <:+ it.slice := by
  induction N with
  | zero =>
    intro it ps l hm hpl
    obtain ⟨n, rfl⟩ := measure_zero_nextUri it (Nat.le_zero.mp hm)
    obtain ⟨hp, -, -⟩ := nextUri_scan n
    rw [hp] at hpl
    simp only [Except.ok.injEq, Prod.mk.injEq] at hpl
    rw [← hpl.2]
    exact List.suffix_refl _
  | succ N ih =>
    intro it ps l hm hpl
    cases hnext : it.next with
    | mk r it' =>
      cases r with
      | none =>
        obtain ⟨rfl, n, rfl⟩ := (next_spec it _ _ hnext).2.2.2.2 rfl
        obtain ⟨hp, -, -⟩ := nextUri_scan n
        rw [hp] at hpl
        simp only [Except.ok.injEq, Prod.mk.injEq] at hpl
        rw [← hpl.2]
        exact List.suffix_refl _
      | some ex =>
        cases ex with
        | error e0 =>
          rw [pairsOf_error _ _ _ hnext] at hpl
          cases hpl
        | ok pr =>
          rw [pairsOf_ok _ _ _ hnext] at hpl
          cases hq : it'.pairsOf with
          | error e1 =>
            rw [hq] at hpl
            simp [Except.map] at hpl
          | ok pl =>
            obtain ⟨ps', l'⟩ := pl
            rw [hq] at hpl
            simp only [Except.map, Except.ok.injEq, Prod.mk.injEq] at hpl
            have hm' : it'.measure ≤ N := by
              have := (next_spec it _ _ hnext).2.2.1 pr rfl
              omega
            have h1 := ih it' ps' l' hm' hq
            rw [← hpl.2]
            exact h1.trans (next_spec it _ _ hnext).1

theorem parse_uri_ok_spec (s uri : List Char) (it : ParamsIter)
    (h : parse_uri s = .ok (uri, it)) :
    it.slice <:+ s ∧ it.slice.length + 2 ≤ s.length ∧ s ≠ [] := by
  unfold parse_uri at h
  split at h
  · rename_i s1 heq
    split at h
    · cases h
    · rename_i uri' rest heq2
      split at h
      · rename_i it0 heq3
        injection h with h
        injection h with h1 h2
        subst h1
        subst h2
        obtain ⟨hs1, _⟩ := new_ok_spec _ _ heq3
        have hsuffix1 : rest <:+ s1 := splitOnce_suffix _ _ _ _ heq2
        have hsuffix2 : s1 <:+ s := (List.suffix_cons '<' s1).trans (heq ▸ trim_start_isSuffix s)
        have hlen1 : s1.length = uri'.length + rest.length + 1 := splitOnce_length _ _ _ _ heq2
        have hlen2 : s1.length + 1 ≤ s.length := by
          have := trim_start_length_le s
          rw [heq] at this
          simpa using this
        have hslice_len : it0.slice.length ≤ rest.length := (hs1).length_le
        refine ⟨(hs1.trans hsuffix1).trans hsuffix2, by omega, ?_⟩
        intro hs
        subst hs
        simp [trim_start_http_whitespaces] at heq
      · cases h
  · cases h

/-! ## The driver loop against the declarative decomposition -/

/-- The driver `from_str` computes, link-value by link-value, exactly the
    filter-and-project of the declarative decomposition `linkValues`. -/
theorem fromStrGo_linkValuesGo (N : Nat) :
    ∀ (fuel1 fuel2 : Nat) (s : List Char) (acc : List (List Char)),
      s.length < fuel1 → s.length < fuel2 → s.length ≤ N →
      fromStrGo fuel1 s acc =
        (linkValuesGo fuel2 s).map
          (fun lvs => acc ++ (lvs.filter lvIsNextCode).map Prod.fst) := by
  induction N with
  | zero =>
    intro fuel1 fuel2 s acc h1 h2 hN
    have hs : s = [] := List.length_eq_zero.mp (Nat.le_zero.mp hN)
    subst hs
    obtain ⟨f1, rfl⟩ : ∃ k, fuel1 = k + 1 := ⟨fuel1 - 1, by omega⟩
    obtain ⟨f2, rfl⟩ : ∃ k, fuel2 = k + 1 := ⟨fuel2 - 1, by omega⟩
    simp [fromStrGo, linkValuesGo, Except.map]
  | succ N ih =>
    intro fuel1 fuel2 s acc h1 h2 hN
    obtain ⟨f1, rfl⟩ : ∃ k, fuel1 = k + 1 := ⟨fuel1 - 1, by omega⟩
    obtain ⟨f2, rfl⟩ : ∃ k, fuel2 = k + 1 := ⟨fuel2 - 1, by omega⟩
    cases s with
    | nil => simp [fromStrGo, linkValuesGo, Except.map]
    | cons c cs =>
      rw [fromStrGo, linkValuesGo]
      simp only [List.isEmpty_cons, Bool.false_eq_true, if_false]
      cases hparse : parse_uri (c :: cs) with
      | error e => simp [Except.map]
      | ok pair =>
        obtain ⟨uri, it0⟩ := pair
        obtain ⟨hsl_suffix, hsl_len, -⟩ := parse_uri_ok_spec _ uri it0 hparse
        cases hp : it0.pairsOf with
        | error e =>
          simp only
          obtain ⟨sc1, -⟩ := tryFindMap_pairsOf it0.measure it0 (le_refl _)
          rcases sc1 e hp with hcase | ⟨v, it1, hT, hF⟩
          · obtain ⟨x, hx⟩ : ∃ x, it0.tryFindMap = (some (.error e), x) := by
              cases htf : it0.tryFindMap with
              | mk a b =>
                rw [htf] at hcase
                simp only at hcase
                exact ⟨b, by rw [hcase]⟩
            rw [hx]
            simp [hp, Except.map]
          · obtain ⟨y, hy⟩ : ∃ y, it1.findMapErr = (some e, y) := by
              cases htf : it1.findMapErr with
              | mk a b =>
                rw [htf] at hF
                simp only at hF
                exact ⟨b, by rw [hF]⟩
            rw [hT]
            simp only
            rw [hy]
            simp [hp, Except.map]
        | ok pl =>
          obtain ⟨ps, l⟩ := pl
          simp only [hp]
          obtain ⟨-, sc2⟩ := tryFindMap_pairsOf it0.measure it0 (le_refl _)
          obtain ⟨scSome, scNone⟩ := sc2 ps l hp
          have hl_le : l.length ≤ it0.slice.length :=
            (pairsOf_leftover it0.measure it0 ps l (le_refl _) hp).length_le
          have hslen : (c :: cs).length ≤ N + 1 := hN
          have hlt : l.length < (c :: cs).length := by
            simp only [List.length_cons] at hsl_len ⊢
            omega
          have hb1 : l.length < f1 := by
            simp only [List.length_cons] at h1 hlt
            omega
          have hb2 : l.length < f2 := by
            simp only [List.length_cons] at h2 hlt
            omega
          have hbN : l.length ≤ N := by
            simp only [List.length_cons] at hN hlt
            omega
          cases hfr : firstRel ps with
          | some v =>
            obtain ⟨it1, hT, hF⟩ := scSome v hfr
            rw [hT]
            simp only
            rw [hF]
            simp only [ParamsIter.into_next_uri]
            rw [ih f1 f2 l _ hb1 hb2 hbN]
            cases hlv : linkValuesGo f2 l with
            | error e => simp [Except.map]
            | ok lvs =>
              simp only [Except.map, List.filter_cons]
              have : lvIsNextCode (uri, ps) = is_next v := by
                simp [lvIsNextCode, hfr]
              rw [this]
              cases hin : is_next v with
              | true => simp [hin]
              | false => simp [hin]
          | none =>
            have hT := scNone hfr
            rw [hT]
            simp only
            rw [(nextUri_scan l).2.1]
            simp only [ParamsIter.into_next_uri]
            rw [ih f1 f2 l _ hb1 hb2 hbN]
            cases hlv : linkValuesGo f2 l with
            | error e => simp [Except.map]
            | ok lvs =>
              simp only [Except.map, List.filter_cons]
              have : lvIsNextCode (uri, ps) = false := by
                simp [lvIsNextCode, hfr]
              rw [this]
              simp

theorem from_str_linkValues (s : List Char) :
    from_str s = (linkValues s).map (fun lvs => (lvs.filter lvIsNextCode).map Prod.fst) := by
  have h := fromStrGo_linkValuesGo s.length (s.length + 1) (s.length + 1) s []
    (Nat.lt_succ_self _) (Nat.lt_succ_self _) (le_refl _)
  simpa [from_str, linkValues] using h

theorem splitCharAux_eq_splitCharsAux (c : Char) (s : List Char) :
    ∀ acc, splitCharAux c s acc = splitCharsAux [c] s acc := by
  induction s with
  | nil => intro acc; rfl
  | cons x xs ih =>
    intro acc
    rw [splitCharAux, splitCharsAux]
    by_cases hx : x = c
    · rw [if_pos hx, if_pos (by simp [hx]), ih]
    · rw [if_neg hx, if_neg (by simp [hx]), ih]

/-- The source's space-only token test agrees with the amended spec wording. -/
theorem is_next_eq_specIsNextSpaceOnly (v : List Char) :
    is_next v = specIsNextSpaceOnly v := by
  unfold is_next specIsNextSpaceOnly splitChar splitChars
  rw [splitCharAux_eq_splitCharsAux]

theorem lvIsNextCode_eq_lvMatchesNext (lv : LinkValue) :
    lvIsNextCode lv = lvMatchesNext lv := by
  unfold lvIsNextCode lvMatchesNext
  cases firstRel lv.2 with
  | none => rfl
  | some v => simp [is_next_eq_specIsNextSpaceOnly]

/-! ## Claim theorems -/

/-- C1: for every well-formed header (one the declarative decomposition
    accepts), `from_str` returns exactly one URI per link-value whose first
    `rel` parameter's token list contains the token `next` (ASCII
    case-insensitively), in the order those link-values appear in the header;
    the empty sequence when none match. -/
theorem C1_from_str_is_spec_selection (s : List Char) (lvs : List LinkValue)
    (h : linkValues s = .ok lvs) :
    from_str s = .ok (specSelectedUris lvs) := by
  rw [from_str_linkValues, h]
  have hfilter : lvs.filter lvIsNextCode = lvs.filter lvMatchesNext :=
    List.filter_congr (fun lv _ => lvIsNextCode_eq_lvMatchesNext lv)
  simp [Except.map, specSelectedUris, hfilter]

theorem C1_witness :
    from_str ("<u>; rel=next, <v>; rel=a".toList)
      = .ok (specSelectedUris
          [("u".toList, [("rel".toList, "next".toList)]),
           ("v".toList, [("rel".toList, "a".toList)])]) :=
  C1_from_str_is_spec_selection _ _ (by decide)

/-- C5: fail-fast atomicity.  Whenever the declarative decomposition reports a
    syntax error anywhere in the header — including a malformed parameter
    after a `rel` value was recorded, or in a later link-value after matches
    accumulated — `from_str` returns exactly that single typed error and no
    partial sequence. -/
theorem C5_fail_fast_atomicity (s : List Char) (e : Err)
    (h : linkValues s = .error e) :
    from_str s = .error e := by
  rw [from_str_linkValues, h]
  rfl

theorem C5_witness :
    from_str ("<u>; rel=next, <v>; rel=a; b".toList) = .error .expectedParam :=
  C5_fail_fast_atomicity _ _ (by decide)

/-- C3: first-occurrence-wins.  Over any clean pair sequence the
    `try_find_map` pass returns exactly the value of the first parameter whose
    name is `rel` (ASCII case-insensitively) — `firstRel` is `List.find?` —
    so the values of all later `rel` parameters never influence the
    decision. -/
theorem C3_first_occurrence_wins (it : ParamsIter)
    (ps : List (List Char × List Char)) (l : List Char)
    (h : it.pairsOf = .ok (ps, l)) :
    (it.tryFindMap).1 = (firstRel ps).map Except.ok := by
  obtain ⟨-, sc2⟩ := tryFindMap_pairsOf it.measure it (le_refl _)
  obtain ⟨scSome, scNone⟩ := sc2 ps l h
  cases hfr : firstRel ps with
  | some v =>
    obtain ⟨it1, hT, -⟩ := scSome v hfr
    rw [hT]
    rfl
  | none =>
    rw [scNone hfr]
    rfl

theorem C3_witness :
    ((ParamsIter.Params "rel=\"next\"; rel=preconnect; a=b".toList).tryFindMap).1
      = (firstRel [("rel".toList, "next".toList),
                   ("rel".toList, "preconnect".toList),
                   ("a".toList, "b".toList)]).map Except.ok :=
  C3_first_occurrence_wins _ _ [] (by decide)

/-- C7: URI token reading.  After trimming leading horizontal whitespace the
    slice must start with an open angle or the parse fails with
    `expectedOpenAngle`; the URI text is everything strictly between that
    angle and the first subsequent close angle, verbatim; with no close angle
    the parse fails with `expectedCloseAngle`. -/
theorem C7_parse_uri_reads_angle_token (s : List Char) (_hs : s ≠ []) :
    ((¬ ∃ t, trim_start_http_whitespaces s = '<' :: t) →
        parse_uri s = .error .expectedOpenAngle)
    ∧ (∀ u, trim_start_http_whitespaces s = '<' :: u → '>' ∉ u →
        parse_uri s = .error .expectedCloseAngle)
    ∧ (∀ u rest, trim_start_http_whitespaces s = '<' :: (u ++ '>' :: rest) → '>' ∉ u →
        parse_uri s = (ParamsIter.new rest).map (fun it => (u, it))) := by
  refine ⟨?_, ?_, ?_⟩
  · intro hno
    unfold parse_uri
    split
    · rename_i s1 heq
      exact absurd ⟨s1, heq⟩ hno
    · rfl
  · intro u heq hnot
    unfold parse_uri
    rw [heq]
    simp only
    rw [(splitOnce_eq_none '>' u).mpr hnot]
  · intro u rest heq hnot
    unfold parse_uri
    rw [heq]
    simp only
    rw [splitOnce_append '>' u rest hnot]
    simp only
    cases hnew : ParamsIter.new rest with
    | ok it => simp [Except.map]
    | error e => simp [Except.map]

theorem C7_witness :
    parse_uri (" <u>; rel=next".toList)
      = (ParamsIter.new ("; rel=next".toList)).map (fun it => ("u".toList, it)) :=
  (C7_parse_uri_reads_angle_token (" <u>; rel=next".toList) (by decide)).2.2
    "u".toList ("; rel=next".toList) (by decide) (by decide)

/-- C8: cursor monotonicity.  The slice held after reading a URI token is a
    suffix of the input slice (so the header is always consumed-prefix plus
    remaining slice and the cursor never moves backward); every scanner step
    moves to a suffix of its slice; and after the scanner reports exhaustion
    it stays exhausted, yielding no further parameter. -/
theorem C8_cursor_monotonicity :
    (∀ (s uri : List Char) (it : ParamsIter),
        parse_uri s = .ok (uri, it) → it.slice <:+ s)
    ∧ (∀ (it : ParamsIter) r (it' : ParamsIter),
        it.next = (r, it') → it'.slice <:+ it.slice)
    ∧ (∀ (it it' : ParamsIter),
        it.next = (none, it') → it' = it ∧ it'.next = (none, it')) := by
  refine ⟨fun s uri it h => (parse_uri_ok_spec s uri it h).1,
    fun it r it' h => (next_spec it r it' h).1,
    fun it it' h => ?_⟩
  obtain ⟨rfl, n, rfl⟩ := (next_spec it _ _ h).2.2.2.2 rfl
  exact ⟨rfl, rfl⟩

theorem C8_witness :
    (ParamsIter.Params "a=b; c=d".toList).next.2.slice <:+ "a=b; c=d".toList :=
  C8_cursor_monotonicity.2.1 (ParamsIter.Params "a=b; c=d".toList)
    (ParamsIter.Params "a=b; c=d".toList).next.1
    (ParamsIter.Params "a=b; c=d".toList).next.2 rfl

/-- C9: totality and strict consumption.  Reading one link-value's URI token
    consumes at least the two angle characters, and draining its parameter
    scanner never grows the remainder, so every iteration of the (total,
    fuelled) driver strictly shrinks the remaining slice. -/
theorem C9_strict_consumption :
    (∀ (s uri : List Char) (it : ParamsIter),
        parse_uri s = .ok (uri, it) → it.slice.length + 2 ≤ s.length)
    ∧ (∀ (it : ParamsIter) (ps : List (List Char × List Char)) (l : List Char),
        it.pairsOf = .ok (ps, l) → l.length ≤ it.slice.length) :=
  ⟨fun s uri it h => (parse_uri_ok_spec s uri it h).2.1,
   fun it ps l h => (pairsOf_leftover it.measure it ps l (le_refl _) h).length_le⟩

theorem C9_witness :
    (ParamsIter.NextUri "".toList).slice.length + 2 ≤ "<u>".toList.length :=
  C9_strict_consumption.1 "<u>".toList "u".toList (ParamsIter.NextUri "".toList) (by decide)

/-- C2 counterexample: for the header whose only link-value carries
    `rel="next<TAB>preconnect"`, the relation value does contain the token
    `next` under the spec's space-or-tab tokenisation, yet the parse returns
    the empty sequence — the URI is *not* included, because the source splits
    the `rel` value on the space character only. -/
theorem C2_counterexample :
    specIsNextSpaceTab "next\tpreconnect".toList = true
    ∧ from_str "<u>; rel=\"next\tpreconnect\"".toList = .ok [] := by
  decide

/-- C2 (amended): when a link-value's recorded `rel` value is tested for
    `next`, it is split into tokens on the space character only — horizontal
    tab is not a separator — and each token is compared ASCII
    case-insensitively against `next`. -/
theorem C2_rel_value_splits_on_space_only (v : List Char) :
    is_next v = specIsNextSpaceOnly v :=
  is_next_eq_specIsNextSpaceOnly v

theorem dropWhile_ws_append (p : Char → Bool) (ws : List Char) (y : Char) (X : List Char)
    (hws : ∀ c ∈ ws, p c = true) (hy : p y = false) :
    (ws ++ y :: X).dropWhile p = y :: X := by
  induction ws with
  | nil => simp [List.dropWhile_cons, hy]
  | cons w ws' ih =>
    rw [List.cons_append, List.dropWhile_cons]
    rw [hws w (List.mem_cons_self _ _)]
    simp only [if_true]
    exact ih (fun c hc => hws c (List.mem_cons_of_mem _ hc))

/-- C4 counterexample: under the eager URI materialisation the repository's
    failure test fixes (src/lib.rs lines 116–119), a header whose only
    ill-formed URI belongs to a link-value that does *not* match `rel=next`
    still fails with the wrapped URI-parse error — while the text-level parse
    shows that no link-value matches (`ok []`). -/
theorem C4_counterexample :
    from_str "<;,>; rel=a".toList = .ok []
    ∧ fromStrUrl (fun u => if u = ";,".toList then none else some u)
        "<;,>; rel=a".toList
      = .error (.invalidUri ";,".toList) := by
  decide

/-- C4 (amended): an `InvalidUri` failure is produced whenever any link-value
    of a well-formed header carries a URI the external parser rejects —
    regardless of whether that link-value matches `rel=next` — because each
    link-value's URI is materialised right after its token is read, before the
    `rel` test. -/
theorem fromStrUrlGo_invalid {α : Type} (parseU : List Char → Option α) (N : Nat) :
    ∀ (fuel1 fuel2 : Nat) (s : List Char) (lvs : List LinkValue) (acc : List α),
      s.length < fuel1 → s.length < fuel2 → s.length ≤ N →
      linkValuesGo fuel2 s = .ok lvs →
      (∃ lv ∈ lvs, parseU lv.1 = none) →
      ∃ u, fromStrUrlGo parseU fuel1 s acc = .error (.invalidUri u)
        ∧ parseU u = none ∧ ∃ lv ∈ lvs, lv.1 = u := by
  induction N with
  | zero =>
    intro fuel1 fuel2 s lvs acc h1 h2 hN hlv hbad
    have hs : s = [] := List.length_eq_zero.mp (Nat.le_zero.mp hN)
    subst hs
    obtain ⟨f2, rfl⟩ : ∃ k, fuel2 = k + 1 := ⟨fuel2 - 1, by omega⟩
    rw [linkValuesGo] at hlv
    simp only [List.isEmpty_nil, if_true] at hlv
    injection hlv with hlv
    obtain ⟨lv, hmem, -⟩ := hbad
    rw [← hlv] at hmem
    cases hmem
  | succ N ih =>
    intro fuel1 fuel2 s lvs acc h1 h2 hN hlv hbad
    obtain ⟨f1, rfl⟩ : ∃ k, fuel1 = k + 1 := ⟨fuel1 - 1, by omega⟩
    obtain ⟨f2, rfl⟩ : ∃ k, fuel2 = k + 1 := ⟨fuel2 - 1, by omega⟩
    cases s with
    | nil =>
      rw [linkValuesGo] at hlv
      simp only [List.isEmpty_nil, if_true] at hlv
      injection hlv with hlv
      obtain ⟨lv, hmem, -⟩ := hbad
      rw [← hlv] at hmem
      cases hmem
    | cons c cs =>
      rw [linkValuesGo] at hlv
      simp only [List.isEmpty_cons, Bool.false_eq_true, if_false] at hlv
      rw [fromStrUrlGo]
      simp only [List.isEmpty_cons, Bool.false_eq_true, if_false]
      cases hparse : parse_uri (c :: cs) with
      | error e =>
        rw [hparse] at hlv
        cases hlv
      | ok pair =>
        obtain ⟨uri, it0⟩ := pair
        rw [hparse] at hlv
        simp only at hlv
        obtain ⟨hsl_suffix, hsl_len, -⟩ := parse_uri_ok_spec _ uri it0 hparse
        cases hp : it0.pairsOf with
        | error e =>
          rw [hp] at hlv
          cases hlv
        | ok pl =>
          obtain ⟨ps, l⟩ := pl
          rw [hp] at hlv
          simp only at hlv
          cases hrest : linkValuesGo f2 l with
          | error e =>
            rw [hrest] at hlv
            cases hlv
          | ok lvs' =>
            rw [hrest] at hlv
            injection hlv with hlv
            cases hu : parseU uri with
            | none =>
              simp only
              rw [hu]
              refine ⟨uri, rfl, hu, (uri, ps), ?_, rfl⟩
              rw [← hlv]
              exact List.mem_cons_self _ _
            | some u0 =>
              have hl_le : l.length ≤ it0.slice.length :=
                (pairsOf_leftover it0.measure it0 ps l (le_refl _) hp).length_le
              have hb1 : l.length < f1 := by
                simp only [List.length_cons] at h1 hsl_len
                omega
              have hb2 : l.length < f2 := by
                simp only [List.length_cons] at h2 hsl_len
                omega
              have hbN : l.length ≤ N := by
                simp only [List.length_cons] at hN hsl_len
                omega
              have hbad' : ∃ lv ∈ lvs', parseU lv.1 = none := by
                obtain ⟨lv, hmem, hlvbad⟩ := hbad
                rw [← hlv] at hmem
                cases hmem with
                | head =>
                  rw [hu] at hlvbad
                  cases hlvbad
                | tail _ hmem' => exact ⟨lv, hmem', hlvbad⟩
              obtain ⟨-, sc2⟩ := tryFindMap_pairsOf it0.measure it0 (le_refl _)
              obtain ⟨scSome, scNone⟩ := sc2 ps l hp
              simp only
              rw [hu]
              simp only
              cases hfr : firstRel ps with
              | some v =>
                obtain ⟨it1, hT, hF⟩ := scSome v hfr
                rw [hT]
                simp only
                rw [hF]
                simp only [ParamsIter.into_next_uri]
                obtain ⟨u, hres, hnone, lv, hmem, hlv1⟩ :=
                  ih f1 f2 l lvs' _ hb1 hb2 hbN hrest hbad'
                refine ⟨u, hres, hnone, lv, ?_, hlv1⟩
                rw [← hlv]
                exact List.mem_cons_of_mem _ hmem
              | none =>
                have hT := scNone hfr
                rw [hT]
                simp only
                rw [(nextUri_scan l).2.1]
                simp only [ParamsIter.into_next_uri]
                obtain ⟨u, hres, hnone, lv, hmem, hlv1⟩ :=
                  ih f1 f2 l lvs' _ hb1 hb2 hbN hrest hbad'
                refine ⟨u, hres, hnone, lv, ?_, hlv1⟩
                rw [← hlv]
                exact List.mem_cons_of_mem _ hmem

/-- C4 (amended): an `InvalidUri` failure is produced whenever any link-value
    of a well-formed header carries a URI the external parser rejects —
    regardless of whether that link-value matches `rel=next` — because every
    link-value's URI is materialised right after its token is read, before
    the `rel` test.  The wrapped cause is the rejected URI text, and it is
    the URI of one of the header's link-values. -/
theorem C4_invalid_uri_is_eager {α : Type} (parseU : List Char → Option α)
    (s : List Char) (lvs : List LinkValue)
    (h : linkValues s = .ok lvs)
    (hbad : ∃ lv ∈ lvs, parseU lv.1 = none) :
    ∃ u, fromStrUrl parseU s = .error (.invalidUri u)
      ∧ parseU u = none ∧ ∃ lv ∈ lvs, lv.1 = u :=
  fromStrUrlGo_invalid parseU s.length (s.length + 1) (s.length + 1) s lvs []
    (Nat.lt_succ_self _) (Nat.lt_succ_self _) (le_refl _) h hbad

theorem C4_witness :
    ∃ u, fromStrUrl (fun u => if u = ";,".toList then none else some u)
        "<u>; rel=next, <;,>; rel=a".toList
      = .error (.invalidUri u)
      ∧ (fun u => if u = ";,".toList then none else some u) u = none
      ∧ ∃ lv ∈ [("u".toList, [("rel".toList, "next".toList)]),
                 (";,".toList, [("rel".toList, "a".toList)])], lv.1 = u :=
  C4_invalid_uri_is_eager _ _ _ (by decide)
    ⟨(";,".toList, [("rel".toList, "a".toList)]), by decide, by decide⟩

/-- C6 counterexample: in the header below, the text after the quoted value's
    closing quote is a space followed by `; a=b` — it begins with neither
    `;` nor `,` and is not empty — yet the parse succeeds, because the
    scanner trims leading horizontal whitespace before classifying that
    text. -/
theorem C6_counterexample :
    from_str "<u>; rel=\"next\" ; a=b".toList = .ok ["u".toList] := by
  decide

/-- C6 (amended): a quoted parameter value.  After trimming leading
    horizontal whitespace the value must begin with a double quote; the close
    quote is the next literal double quote with no escape processing; without
    one the scan fails with `unclosedQuote`, leaving the state untouched; the
    yielded value is exactly the text between the quotes, untrimmed; and the
    text after the closing quote must — after trimming leading horizontal
    whitespace — begin with `;`, begin with `,`, or be empty, otherwise the
    parse fails with `expectedSeparatorOrTermination`. -/
theorem C6_quoted_param_value (name ws v t : List Char)
    (hname : ('=' : Char) ∉ name)
    (hws : ∀ c ∈ ws, isHttpWs c = true)
    (hv : ('"' : Char) ∉ v) :
    ((ParamsIter.Params (name ++ '=' :: (ws ++ '"' :: (v ++ '"' :: t)))).next
        = match ParamsIter.new t with
          | .ok st => (some (.ok (trim_end_http_whitespaces name, v)), st)
          | .error e =>
            (some (.error e), .Params (name ++ '=' :: (ws ++ '"' :: (v ++ '"' :: t)))))
    ∧ ((ParamsIter.Params (name ++ '=' :: (ws ++ '"' :: v))).next
        = (some (.error .unclosedQuote), .Params (name ++ '=' :: (ws ++ '"' :: v))))
    ∧ (∀ x t', trim_start_http_whitespaces t = x :: t' → x ≠ ';' → x ≠ ',' →
        ParamsIter.new t = .error .expectedSeparatorOrTermination) := by
  refine ⟨?_, ?_, ?_⟩
  · rw [ParamsIter.next]
    rw [splitOnce_append '=' name _ hname]
    simp only
    rw [show trim_start_http_whitespaces (ws ++ '"' :: (v ++ '"' :: t)) = '"' :: (v ++ '"' :: t)
      from dropWhile_ws_append isHttpWs ws '"' _ hws (by decide)]
    simp only
    rw [splitOnce_append '"' v t hv]
  · rw [ParamsIter.next]
    rw [splitOnce_append '=' name _ hname]
    simp only
    rw [show trim_start_http_whitespaces (ws ++ '"' :: v) = '"' :: v
      from dropWhile_ws_append isHttpWs ws '"' _ hws (by decide)]
    simp only
    rw [(splitOnce_eq_none '"' v).mpr hv]
  · intro x t' heq hx1 hx2
    unfold ParamsIter.new
    rw [heq]
    unfold ParamsIter.new_without_trim
    split
    · rename_i heq2
      injection heq2 with h1 h2
      exact absurd h1 hx1
    · rename_i heq2
      injection heq2 with h1 h2
      exact absurd h1 hx2
    · rename_i heq2
      exact absurd heq2 (List.cons_ne_nil _ _)
    · rfl

theorem C6_witness :
    (ParamsIter.Params ("a".toList ++ '=' :: ([] ++ '"' :: "xy".toList))).next
      = (some (.error .unclosedQuote),
         .Params ("a".toList ++ '=' :: ([] ++ '"' :: "xy".toList))) :=
  (C6_quoted_param_value "a".toList [] "xy".toList []
    (by decide) (by decide) (by decide)).2.1

/-! ## Appending a trailing separator: list-level facts -/

theorem dropWhile_append_pos (p : Char → Bool) (a b : List Char) (h : a.dropWhile p ≠ []) :
    (a ++ b).dropWhile p = a.dropWhile p ++ b := by
  induction a with
  | nil => simp at h
  | cons x xs ih =>
    by_cases hx : p x = true
    · rw [List.cons_append, List.dropWhile_cons, List.dropWhile_cons, if_pos hx, if_pos hx]
      apply ih
      rw [List.dropWhile_cons, if_pos hx] at h
      exact h
    · rw [List.cons_append, List.dropWhile_cons, List.dropWhile_cons, if_neg hx, if_neg hx]
      rfl

theorem dropWhile_append_neg (p : Char → Bool) (a b : List Char) (h : a.dropWhile p = []) :
    (a ++ b).dropWhile p = b.dropWhile p := by
  induction a with
  | nil => simp
  | cons x xs ih =>
    by_cases hx : p x = true
    · rw [List.cons_append, List.dropWhile_cons, if_pos hx]
      apply ih
      rw [List.dropWhile_cons, if_pos hx] at h
      exact h
    · rw [List.dropWhile_cons, if_neg hx] at h
      cases h

theorem takeWhile_append_pos (p : Char → Bool) (a b : List Char) (h : a.dropWhile p ≠ []) :
    (a ++ b).takeWhile p = a.takeWhile p := by
  induction a with
  | nil => simp at h
  | cons x xs ih =>
    by_cases hx : p x = true
    · rw [List.cons_append, List.takeWhile_cons, List.takeWhile_cons, if_pos hx, if_pos hx]
      rw [List.dropWhile_cons, if_pos hx] at h
      rw [ih h]
    · rw [List.cons_append, List.takeWhile_cons, List.takeWhile_cons, if_neg hx, if_neg hx]

theorem takeWhile_append_neg (p : Char → Bool) (a b : List Char) (h : a.dropWhile p = []) :
    (a ++ b).takeWhile p = a ++ b.takeWhile p := by
  induction a with
  | nil => simp
  | cons x xs ih =>
    by_cases hx : p x = true
    · rw [List.cons_append, List.takeWhile_cons, if_pos hx]
      rw [List.dropWhile_cons, if_pos hx] at h
      rw [ih h, List.cons_append]
    · rw [List.dropWhile_cons, if_neg hx] at h
      cases h

theorem trim_start_all_ws (ws : List Char) (h : ∀ c ∈ ws, isHttpWs c = true) :
    trim_start_http_whitespaces ws = [] := by
  induction ws with
  | nil => rfl
  | cons x xs ih =>
    unfold trim_start_http_whitespaces at *
    rw [List.dropWhile_cons, if_pos (h x (List.mem_cons_self _ _))]
    exact ih (fun c hc => h c (List.mem_cons_of_mem _ hc))

theorem trim_start_append_inv (q z : List Char) (hz : trim_start_http_whitespaces z = z) :
    trim_start_http_whitespaces (q ++ z) = trim_start_http_whitespaces q ++ z := by
  by_cases hq : trim_start_http_whitespaces q = []
  · rw [hq, List.nil_append]
    unfold trim_start_http_whitespaces at *
    rw [dropWhile_append_neg _ _ _ hq, hz]
  · unfold trim_start_http_whitespaces at *
    exact dropWhile_append_pos _ _ _ hq

theorem splitOnce_append_some (c : Char) (s a b z : List Char)
    (h : splitOnce c s = some (a, b)) :
    splitOnce c (s ++ z) = some (a, b ++ z) := by
  obtain ⟨h1, h2⟩ := splitOnce_eq_some c s a b h
  subst h1
  rw [List.append_assoc, List.cons_append]
  exact splitOnce_append c a (b ++ z) h2

theorem splitOnce_append_none (c : Char) (s z : List Char)
    (h : splitOnce c s = none) (hz : c ∉ z) :
    splitOnce c (s ++ z) = none := by
  refine (splitOnce_eq_none c _).mpr ?_
  have hs := (splitOnce_eq_none c s).mp h
  simp only [List.mem_append, not_or]
  exact ⟨hs, hz⟩

theorem not_mem_comma_ws (ws : List Char) (hws : ∀ c ∈ ws, isHttpWs c = true)
    (y : Char) (hy1 : y ≠ ',') (hy2 : isHttpWs y = false) : y ∉ (',' :: ws) := by
  simp only [List.mem_cons, not_or]
  refine ⟨hy1, fun hc => ?_⟩
  rw [hws y hc] at hy2
  cases hy2

theorem lastNonWs_suffix (p t : List Char) (h : t <:+ p) :
    lastNonWs t = none ∨ lastNonWs t = lastNonWs p := by
  obtain ⟨pre, rfl⟩ := h
  unfold lastNonWs
  rw [List.reverse_append]
  by_cases ht : t.reverse.dropWhile isHttpWs = []
  · left
    rw [ht]
    rfl
  · right
    rw [dropWhile_append_pos _ _ _ ht]
    cases hd : t.reverse.dropWhile isHttpWs with
    | nil => exact absurd hd ht
    | cons x xs => rfl
    
theorem lastNonWs_comma_ws (q : List Char) (hq : ∀ c ∈ q, isHttpWs c = true) :
    lastNonWs (',' :: q) = some ',' := by
  unfold lastNonWs
  rw [List.reverse_cons]
  rw [dropWhile_append_neg]
  · rfl
  · have : ∀ c ∈ q.reverse, isHttpWs c = true := fun c hc => hq c (List.mem_reverse.mp hc)
    unfold trim_start_http_whitespaces at *
    exact trim_start_all_ws _ this

theorem dropWhile_eq_nil_all (p : Char → Bool) (l : List Char) (h : l.dropWhile p = []) :
    ∀ c ∈ l, p c = true := by
  induction l with
  | nil => intro c hc; cases hc
  | cons x xs ih =>
    rw [List.dropWhile_cons] at h
    split at h
    · rename_i hx
      intro c hc
      cases hc with
      | head => exact hx
      | tail _ hc' => exact ih h c hc'
    · cases h

theorem trim_z_invariant (ws : List Char) :
    trim_start_http_whitespaces (',' :: ws) = ',' :: ws := by
  unfold trim_start_http_whitespaces
  rw [List.dropWhile_cons, if_neg (by decide)]

theorem nwt_semi (q : List Char) :
    ParamsIter.new_without_trim (';' :: q) = .ok (.Params (trim_start_http_whitespaces q)) := rfl

theorem nwt_comma (q : List Char) :
    ParamsIter.new_without_trim (',' :: q) = .ok (.NextUri (trim_start_http_whitespaces q)) := rfl

theorem nwt_other (x : Char) (q : List Char) (h1 : x ≠ ';') (h2 : x ≠ ',') :
    ParamsIter.new_without_trim (x :: q) = .error .expectedSeparatorOrTermination := by
  unfold ParamsIter.new_without_trim
  split
  · rename_i heq
    injection heq with ha hb
    exact absurd ha h1
  · rename_i heq
    injection heq with ha hb
    exact absurd ha h2
  · rename_i heq
    exact absurd heq (List.cons_ne_nil _ _)
  · rfl

/-- Applying `new_without_trim` on a delimiter-led slice, after appending a trailing
    `,` plus whitespace: the produced state simulates the original. -/
theorem nwt_append_sim (ws : List Char) (_hws : ∀ c ∈ ws, isHttpWs c = true)
    (d : Char) (ds : List Char) (st : ParamsIter)
    (h : ParamsIter.new_without_trim (d :: ds) = .ok st)
    (hcomma : lastNonWs (d :: ds) ≠ some ',') :
    ∃ st', ParamsIter.new_without_trim (d :: (ds ++ ',' :: ws)) = .ok st'
      ∧ SimZ (',' :: ws) st st' := by
  by_cases hd1 : d = ';'
  · subst hd1
    rw [nwt_semi] at h
    injection h with h
    subst h
    refine ⟨.Params (trim_start_http_whitespaces ds ++ ',' :: ws), ?_, Or.inl ⟨_, rfl, rfl⟩⟩
    rw [nwt_semi, trim_start_append_inv _ _ (trim_z_invariant ws)]
  · by_cases hd2 : d = ','
    · subst hd2
      rw [nwt_comma] at h
      injection h with h
      subst h
      by_cases hq : trim_start_http_whitespaces ds = []
      · exfalso
        apply hcomma
        exact lastNonWs_comma_ws ds (dropWhile_eq_nil_all _ _ hq)
      · refine ⟨.NextUri (trim_start_http_whitespaces ds ++ ',' :: ws), ?_,
          Or.inr (Or.inl ⟨_, hq, rfl, rfl⟩)⟩
        rw [nwt_comma, trim_start_append_inv _ _ (trim_z_invariant ws)]
    · rw [nwt_other d ds hd1 hd2] at h
      cases h

/-- Applying `ParamsIter::new` after appending a trailing `,` plus whitespace: the
    produced state simulates the original. -/
theorem new_append_sim (ws : List Char) (hws : ∀ c ∈ ws, isHttpWs c = true)
    (rest1 : List Char) (st : ParamsIter)
    (h : ParamsIter.new rest1 = .ok st)
    (hcomma : lastNonWs rest1 ≠ some ',') :
    ∃ st', ParamsIter.new (rest1 ++ ',' :: ws) = .ok st' ∧ SimZ (',' :: ws) st st' := by
  unfold ParamsIter.new at h ⊢
  rw [trim_start_append_inv _ _ (trim_z_invariant ws)]
  cases hts : trim_start_http_whitespaces rest1 with
  | nil =>
    rw [hts] at h
    injection h with h
    subst h
    refine ⟨.NextUri [], ?_, Or.inr (Or.inr ⟨rfl, rfl⟩)⟩
    rw [List.nil_append, nwt_comma, trim_start_all_ws ws hws]
  | cons d ds =>
    rw [hts] at h
    have hsuffix : (d :: ds) <:+ rest1 := hts ▸ trim_start_isSuffix rest1
    have hcomma' : lastNonWs (d :: ds) ≠ some ',' := by
      intro hcon
      rcases lastNonWs_suffix rest1 (d :: ds) hsuffix with h0 | h0
      · rw [hcon] at h0
        cases h0
      · rw [hcon] at h0
        exact hcomma h0.symm
    rw [List.cons_append]
    exact nwt_append_sim ws hws d ds st h hcomma'

theorem lastNonWs_ne_of_suffix (p t : List Char) (h : t <:+ p)
    (hc : lastNonWs p ≠ some ',') : lastNonWs t ≠ some ',' := by
  intro hcon
  rcases lastNonWs_suffix p t h with h0 | h0
  · rw [hcon] at h0
    cases h0
  · rw [hcon] at h0
    exact hc h0.symm

/-- One scanner step after appending a trailing `,` plus whitespace: it
    yields the same pair and moves to a state simulating the original. -/
theorem next_append (ws : List Char) (hws : ∀ c ∈ ws, isHttpWs c = true)
    (p : List Char) (pr : List Char × List Char) (it2 : ParamsIter)
    (h : (ParamsIter.Params p).next = (some (.ok pr), it2))
    (hcomma : lastNonWs p ≠ some ',') :
    ∃ it2', (ParamsIter.Params (p ++ ',' :: ws)).next = (some (.ok pr), it2')
      ∧ SimZ (',' :: ws) it2 it2' := by
  have hdz : (',' :: ws).dropWhile (fun c => !isParamDelim c) = ',' :: ws := by
    rw [List.dropWhile_cons, if_neg (by decide)]
  have htz : (',' :: ws).takeWhile (fun c => !isParamDelim c) = [] := by
    rw [List.takeWhile_cons, if_neg (by decide)]
  simp only [ParamsIter.next] at h
  split at h
  · -- no '=' in p: contradiction, the step failed
    injection h with h1 h2
    injection h1 with h1
    cases h1
  · rename_i name rest0 hsp
    have hrest0_suffix : rest0 <:+ p := splitOnce_suffix _ _ _ _ hsp
    have hsp2 : splitOnce '=' (p ++ ',' :: ws) = some (name, rest0 ++ ',' :: ws) :=
      splitOnce_append_some _ _ _ _ _ hsp
    have htrim : trim_start_http_whitespaces (rest0 ++ ',' :: ws)
        = trim_start_http_whitespaces rest0 ++ ',' :: ws :=
      trim_start_append_inv _ _ (trim_z_invariant ws)
    split at h
    · -- quoted value
      rename_i restq heq2
      split at h
      · -- unclosed quote: contradiction
        injection h with h1 h2
        injection h1 with h1
        cases h1
      · rename_i value rest1 heq3
        split at h
        · -- the new state was built from the text after the closing quote
          rename_i st heq4
          injection h with h1 h2
          injection h1 with h1
          injection h1 with h1
          subst h1
          subst h2
          have hrest1_suffix : rest1 <:+ p := by
            have s1 : rest1 <:+ restq := splitOnce_suffix _ _ _ _ heq3
            have s2 : restq <:+ rest0 :=
              (List.suffix_cons '"' restq).trans (heq2 ▸ trim_start_isSuffix rest0)
            exact (s1.trans s2).trans hrest0_suffix
          obtain ⟨st', hst', hsim⟩ := new_append_sim ws hws rest1 st heq4
            (lastNonWs_ne_of_suffix _ _ hrest1_suffix hcomma)
          refine ⟨st', ?_, hsim⟩
          simp only [ParamsIter.next, hsp2]
          rw [htrim, heq2, List.cons_append]
          simp only
          rw [splitOnce_append_some '"' restq value rest1 _ heq3]
          simp only
          rw [hst']
        · -- ParamsIter::new failed: contradiction
          injection h with h1 h2
          injection h1 with h1
          cases h1
    · -- unquoted value
      rename_i hnq
      split at h
      · -- no delimiter: the step consumed everything up to the end
        rename_i hnodelim
        injection h with h1 h2
        injection h1 with h1
        injection h1 with h1
        subst h1
        subst h2
        refine ⟨.NextUri [], ?_, Or.inr (Or.inr ⟨rfl, rfl⟩)⟩
        simp only [ParamsIter.next, hsp2]
        rw [htrim]
        -- the appended slice is still not quote-led
        split
        · rename_i restq' heq2'
          exfalso
          cases hts : trim_start_http_whitespaces rest0 with
          | nil =>
            rw [hts, List.nil_append] at heq2'
            injection heq2' with hhead _
            cases hhead
          | cons y ys =>
            rw [hts, List.cons_append] at heq2'
            injection heq2' with hhead _
            subst hhead
            exact hnq ys hts
        · rw [dropWhile_append_neg _ _ _ hnodelim, hdz]
          simp only
          rw [nwt_comma, trim_start_all_ws ws hws]
          rw [takeWhile_append_neg _ _ _ hnodelim, htz, List.append_nil]
      · -- delimiter found: the state was rebuilt at the delimiter
        rename_i d ds heqd
        split at h
        · rename_i st heq4
          injection h with h1 h2
          injection h1 with h1
          injection h1 with h1
          subst h1
          subst h2
          have hdds_suffix : (d :: ds) <:+ p := by
            have s1 : (d :: ds) <:+ trim_start_http_whitespaces rest0 :=
              heqd ▸ dropWhile_isSuffix _ _
            exact (s1.trans (trim_start_isSuffix rest0)).trans hrest0_suffix
          obtain ⟨st', hst', hsim⟩ := nwt_append_sim ws hws d ds st heq4
            (lastNonWs_ne_of_suffix _ _ hdds_suffix hcomma)
          refine ⟨st', ?_, hsim⟩
          simp only [ParamsIter.next, hsp2]
          rw [htrim]
          split
          · rename_i restq' heq2'
            exfalso
            cases hts : trim_start_http_whitespaces rest0 with
            | nil =>
              rw [hts] at heqd
              cases heqd
            | cons y ys =>
              rw [hts, List.cons_append] at heq2'
              injection heq2' with hhead _
              subst hhead
              exact hnq ys hts
          · rw [dropWhile_append_pos _ _ _ (by rw [heqd]; exact List.cons_ne_nil _ _), heqd,
              List.cons_append]
            simp only
            rw [hst']
            rw [takeWhile_append_pos _ _ _ (by rw [heqd]; exact List.cons_ne_nil _ _)]
        · -- new_without_trim failed: contradiction
          injection h with h1 h2
          injection h1 with h1
          cases h1

/-- The full pair scan after appending a trailing `,` plus whitespace: same
    pairs, and the leftover either gains the appended text (when the original
    scan stopped at a next link-value) or stays empty (when it stopped at the
    end of input, where the appended separator is consumed as well). -/
theorem pairsOf_append (ws : List Char) (hws : ∀ c ∈ ws, isHttpWs c = true) (N : Nat) :
    ∀ (it it2 : ParamsIter), it.measure ≤ N → SimZ (',' :: ws) it it2 →
      lastNonWs it.slice ≠ some ',' →
      ∀ (ps : List (List Char × List Char)) (l : List Char), it.pairsOf = .ok (ps, l) →
        ∃ l2, it2.pairsOf = .ok (ps, l2)
          ∧ ((l ≠ [] ∧ l2 = l ++ ',' :: ws) ∨ (l = [] ∧ l2 = [])) := by
  induction N with
  | zero =>
    intro it it2 hm hrel hcomma ps l hpl
    obtain ⟨n, rfl⟩ := measure_zero_nextUri it (Nat.le_zero.mp hm)
    rw [(nextUri_scan n).1] at hpl
    simp only [Except.ok.injEq, Prod.mk.injEq] at hpl
    obtain ⟨hps, hl⟩ := hpl
    rcases hrel with ⟨q, hq, -⟩ | ⟨m, hm', heq, rfl⟩ | ⟨heq, rfl⟩
    · cases hq
    · injection heq with heq
      subst heq
      refine ⟨n ++ ',' :: ws, ?_, Or.inl ⟨by rw [← hl]; exact hm', by rw [← hl]⟩⟩
      rw [(nextUri_scan _).1, hps]
    · injection heq with heq
      subst heq
      refine ⟨[], ?_, Or.inr ⟨hl.symm, rfl⟩⟩
      rw [(nextUri_scan _).1, hps]
  | succ N ih =>
    intro it it2 hm hrel hcomma ps l hpl
    rcases hrel with ⟨p, rfl, rfl⟩ | ⟨n, hn, rfl, rfl⟩ | ⟨rfl, rfl⟩
    · -- active scanning states
      cases hnext : (ParamsIter.Params p).next with
      | mk r it' =>
        cases r with
        | none =>
          obtain ⟨-, n, heq⟩ := (next_spec _ _ _ hnext).2.2.2.2 rfl
          cases heq
        | some ex =>
          cases ex with
          | error e =>
            rw [pairsOf_error _ _ _ hnext] at hpl
            cases hpl
          | ok pr =>
            rw [pairsOf_ok _ _ _ hnext] at hpl
            cases hq : it'.pairsOf with
            | error e =>
              rw [hq] at hpl
              simp [Except.map] at hpl
            | ok pl =>
              obtain ⟨ps', l'⟩ := pl
              rw [hq] at hpl
              simp only [Except.map, Except.ok.injEq, Prod.mk.injEq] at hpl
              obtain ⟨hps, hl⟩ := hpl
              obtain ⟨it2', hnext2, hsim'⟩ :=
                next_append ws hws p pr it' hnext hcomma
              have hm' : it'.measure ≤ N := by
                have hlt := (next_spec _ _ _ hnext).2.2.1 pr rfl
                have hmm : (ParamsIter.Params p).measure ≤ N + 1 := hm
                omega
              have hcomma' : lastNonWs it'.slice ≠ some ',' :=
                lastNonWs_ne_of_suffix _ _ (next_spec _ _ _ hnext).1 hcomma
              obtain ⟨l2, hq2, hrell⟩ := ih it' it2' hm' hsim' hcomma' ps' l' hq
              refine ⟨l2, ?_, ?_⟩
              · rw [pairsOf_ok _ _ _ hnext2, hq2]
                simp only [Except.map]
                rw [hps]
              · rw [← hl]
                exact hrell
    · -- terminal, next link-value pending
      rw [(nextUri_scan n).1] at hpl
      simp only [Except.ok.injEq, Prod.mk.injEq] at hpl
      obtain ⟨hps, hl⟩ := hpl
      refine ⟨n ++ ',' :: ws, ?_, Or.inl ⟨by rw [← hl]; exact hn, by rw [← hl]⟩⟩
      rw [(nextUri_scan _).1, hps]
    · -- terminal at end of input (collapsed)
      rw [(nextUri_scan _).1] at hpl
      simp only [Except.ok.injEq, Prod.mk.injEq] at hpl
      obtain ⟨hps, hl⟩ := hpl
      refine ⟨[], ?_, Or.inr ⟨hl.symm, rfl⟩⟩
      rw [(nextUri_scan _).1, hps]

/-- Reading a URI token after appending a trailing `,` plus whitespace. -/
theorem parse_uri_append (ws : List Char) (hws : ∀ c ∈ ws, isHttpWs c = true)
    (s u : List Char) (it : ParamsIter)
    (h : parse_uri s = .ok (u, it)) (hcomma : lastNonWs s ≠ some ',') :
    ∃ it2, parse_uri (s ++ ',' :: ws) = .ok (u, it2) ∧ SimZ (',' :: ws) it it2 := by
  unfold parse_uri at h
  split at h
  · rename_i s1 heq
    split at h
    · cases h
    · rename_i u' rest heq2
      split at h
      · rename_i it0 heq3
        injection h with h
        injection h with h1 h2
        subst h1
        subst h2
        have hrest_suffix : rest <:+ s := by
          have s2 : s1 <:+ s := (List.suffix_cons '<' s1).trans (heq ▸ trim_start_isSuffix s)
          exact (splitOnce_suffix _ _ _ _ heq2).trans s2
        obtain ⟨it2, hst', hsim⟩ := new_append_sim ws hws rest it0 heq3
          (lastNonWs_ne_of_suffix _ _ hrest_suffix hcomma)
        refine ⟨it2, ?_, hsim⟩
        unfold parse_uri
        rw [trim_start_append_inv _ _ (trim_z_invariant ws), heq, List.cons_append]
        simp only
        rw [splitOnce_append_some '>' s1 u' rest _ heq2]
        simp only
        rw [hst']
      · cases h
  · cases h

theorem linkValuesGo_nil (fuel : Nat) : linkValuesGo fuel [] = .ok [] := by
  cases fuel with
  | zero => rfl
  | succ f => rw [linkValuesGo]; rfl

/-- The declarative decomposition after appending a trailing `,` plus
    whitespace to a well-formed, non-empty header that does not already end
    in a separating comma: same link-values. -/
theorem linkValuesGo_append (ws : List Char) (hws : ∀ c ∈ ws, isHttpWs c = true) (N : Nat) :
    ∀ (fuel1 fuel2 : Nat) (s : List Char) (lvs : List LinkValue),
      s.length < fuel1 → s.length + (ws.length + 1) < fuel2 → s.length ≤ N →
      s ≠ [] → lastNonWs s ≠ some ',' →
      linkValuesGo fuel1 s = .ok lvs →
      linkValuesGo fuel2 (s ++ ',' :: ws) = .ok lvs := by
  induction N with
  | zero =>
    intro fuel1 fuel2 s lvs h1 h2 hN hne hcomma hlv
    exact absurd (List.length_eq_zero.mp (Nat.le_zero.mp hN)) hne
  | succ N ih =>
    intro fuel1 fuel2 s lvs h1 h2 hN hne hcomma hlv
    obtain ⟨f1, rfl⟩ : ∃ k, fuel1 = k + 1 := ⟨fuel1 - 1, by omega⟩
    obtain ⟨f2, rfl⟩ : ∃ k, fuel2 = k + 1 := ⟨fuel2 - 1, by omega⟩
    cases s with
    | nil => exact absurd rfl hne
    | cons c cs =>
      rw [linkValuesGo] at hlv
      simp only [List.isEmpty_cons, Bool.false_eq_true, if_false] at hlv
      rw [List.cons_append, linkValuesGo]
      simp only [List.isEmpty_cons, Bool.false_eq_true, if_false]
      rw [← List.cons_append]
      cases hparse : parse_uri (c :: cs) with
      | error e =>
        rw [hparse] at hlv
        cases hlv
      | ok pair =>
        obtain ⟨u, it0⟩ := pair
        rw [hparse] at hlv
        simp only at hlv
        obtain ⟨hit_suffix, hit_len, -⟩ := parse_uri_ok_spec _ u it0 hparse
        obtain ⟨it2, hparse2, hsim⟩ := parse_uri_append ws hws _ u it0 hparse hcomma
        rw [hparse2]
        simp only
        cases hp : it0.pairsOf with
        | error e =>
          rw [hp] at hlv
          cases hlv
        | ok pl =>
          obtain ⟨ps, l⟩ := pl
          rw [hp] at hlv
          simp only at hlv
          have hl_suffix : l <:+ (c :: cs) :=
            (pairsOf_leftover it0.measure it0 ps l (le_refl _) hp).trans hit_suffix
          have hcomma_it : lastNonWs it0.slice ≠ some ',' :=
            lastNonWs_ne_of_suffix _ _ hit_suffix hcomma
          obtain ⟨l2, hp2, hrell⟩ :=
            pairsOf_append ws hws it0.measure it0 it2 (le_refl _) hsim hcomma_it ps l hp
          rw [hp2]
          simp only
          cases hrest : linkValuesGo f1 l with
          | error e =>
            rw [hrest] at hlv
            cases hlv
          | ok lvs' =>
            rw [hrest] at hlv
            injection hlv with hlv
            rcases hrell with ⟨hlne, rfl⟩ | ⟨rfl, rfl⟩
            · -- the leftover starts the next link-value
              have hl_len : l.length ≤ it0.slice.length :=
                (pairsOf_leftover it0.measure it0 ps l (le_refl _) hp).length_le
              have hb1 : l.length < f1 := by
                simp only [List.length_cons] at h1 hit_len
                omega
              have hb2 : l.length + (ws.length + 1) < f2 := by
                simp only [List.length_cons] at h2 hit_len
                omega
              have hbN : l.length ≤ N := by
                simp only [List.length_cons] at hN hit_len
                omega
              have hcomma_l : lastNonWs l ≠ some ',' :=
                lastNonWs_ne_of_suffix _ _ hl_suffix hcomma
              rw [ih f1 f2 l lvs' hb1 hb2 hbN hlne hcomma_l hrest, ← hlv]
            · -- the leftover was empty: the appended separator is consumed too
              rw [linkValuesGo_nil] at hrest
              injection hrest with hrest
              rw [linkValuesGo_nil, ← hlv, ← hrest]

/-- C10: the driver stops successfully whenever the remaining slice becomes
    empty: the empty header parses to the empty sequence, and appending a
    trailing `,` (plus optional spaces or tabs) after a well-formed header's
    last link-value leaves the parse successful with the same result — even
    though the stated grammar expects a link-value after every comma. -/
theorem C10_empty_header_and_trailing_comma :
    from_str [] = .ok []
    ∧ ∀ (s : List Char) (res : List (List Char)) (ws : List Char),
        from_str s = .ok res → s ≠ [] → lastNonWs s ≠ some ',' →
        (∀ c ∈ ws, isHttpWs c = true) →
        from_str (s ++ ',' :: ws) = .ok res := by
  constructor
  · rfl
  · intro s res ws hok hne hcomma hws
    rw [from_str_linkValues] at hok
    cases hlv : linkValues s with
    | error e =>
      rw [hlv] at hok
      cases hok
    | ok lvs =>
      rw [hlv] at hok
      simp only [Except.map] at hok
      have h2 : linkValuesGo ((s ++ ',' :: ws).length + 1) (s ++ ',' :: ws) = .ok lvs := by
        apply linkValuesGo_append ws hws s.length (s.length + 1) _ s lvs
          (Nat.lt_succ_self _) ?_ (le_refl _) hne hcomma hlv
        simp only [List.length_append, List.length_cons]
        omega
      rw [from_str_linkValues]
      have hlv2 : linkValues (s ++ ',' :: ws) = .ok lvs := h2
      rw [hlv2]
      simp only [Except.map]
      exact hok

theorem C10_witness :
    from_str ("<u>; rel=next".toList ++ ',' :: [' ']) = .ok ["u".toList] :=
  C10_empty_header_and_trailing_comma.2 "<u>; rel=next".toList ["u".toList] [' ']
    (by decide) (by decide) (by decide) (by decide)
